import Mathlib

/-!
Verification development for `text.py` (RobLOlson/text), a console text-layout
library.  The source is Python 2 (it uses `raise E, msg` syntax and integer
`/`, which floors).  We shallowly embed the two cores the claims are about:

* the wrap/frame engine (`constrain`, `frame`), modelled on `List Char` with
  newline characters explicit; the per-line regular-expression substitutions
  of the source are modelled as per-line list transformations, and the single
  global (non-multiline) substitution inside `constrain` is modelled by an
  explicit scanning function that mirrors Python `re.sub` semantics for the
  concrete pattern `(.{,W})(\s|(\w--?\w)|$)` used by the source;
* the panel tree (`Panel`, `PanelTree`, `seal`, `set_percent`, `subdivide`,
  `__getitem__`/`__setitem__`), modelled as a functional tree addressed by
  child-index paths, with Python exceptions made explicit in an error type
  (`PanelError` values vs. unhandled Python crashes such as `AttributeError`).

Python integer `/` on ints is floor division and is modelled by `Int.fdiv`.
`int(round(x))` in Python 2 rounds half away from zero; the source computes
the rounded quantity in binary floating point, we model the value exactly as
a rational rounded half away from zero (the two agree except possibly at ties
that binary floating point cannot represent; no theorem below depends on a
misrepresented tie).
-/

namespace TextPy

/-- Python booleans used as integers (`1*self.leftFrame` etc.). -/
def bt (b : Bool) : Int := if b then 1 else 0

/-! ### Lines of a string

A Python string is a `List Char` here.  `textLines` splits at every `'\n'`
exactly like Python's `str.split("\n")`; `joinNL` is `"\n".join`. -/

def textLines : List Char → List (List Char)
  | [] => [[]]
  | c :: r =>
    if c = '\n' then [] :: textLines r
    else
      match textLines r with
      | [] => [[c]]
      | l :: ls => (c :: l) :: ls

def joinNL : List (List Char) → List Char
  | [] => []
  | [l] => l
  | l :: ls => l ++ '\n' :: joinNL ls

/-- Python `text.split("\n", m)`: at most `m` splits, the last part keeps the
remaining newlines. -/
def pySplitNlN (m : Nat) (s : List Char) : List (List Char) :=
  let ls := textLines s
  if ls.length ≤ m + 1 then ls else ls.take m ++ [joinNL (ls.drop m)]

/-- Python `text[:-1]`-on-trailing-newline step at the end of `constrain`
(`if text[-1]=='\n': text = text[:-1]`).  On the empty string Python would
raise `IndexError`; `frame` never passes an empty string (it substitutes a
blank line first), we leave the empty string unchanged. -/
def stripTrailingNl (s : List Char) : List Char :=
  if s.getLast? = some '\n' then s.dropLast else s

/-! ### The wrap engine: `constrain(text, width)` (text.py lines 647-688)

The source builds the pattern `(.{,W})(\s|(\w--?\w)|$)` with `W = width` and
substitutes globally with a lambda.  Notes on fidelity:

* Python 2 `\s` without `re.UNICODE` is `[ \t\n\r\f\v]`, `\w` is
  `[a-zA-Z0-9_]`.
* The lambda's first branch tests `re.match(r"^\+-*\+^", ...)`: the trailing
  `^` can never match (no MULTILINE flag, and the engine is past position 0),
  so that branch is dead and is not modelled.
* Group 2 alternatives are tried in order `\s`, `\w--?\w`, `$` at each end
  position of the greedy group 1, and group 1 lengths are tried longest
  first; `$` only matches at end of input here because `\s` is tried first
  and subsumes the end-of-line-before-`\n` case.
* `re.sub` skips an empty match adjacent to the previous match; the only
  possible empty match of this pattern is group1 empty + `$` at end of input.
* When `width < 0` the quantifier `{,-n}` is invalid and Python treats the
  brace part literally, so the pattern only matches text containing the
  literal characters of the malformed quantifier; no text framed by this
  library contains them, and we model the substitution as the identity in
  that case.
-/

def isPySpace (c : Char) : Bool :=
  c = ' ' || c = '\t' || c = '\n' || c = '\r' || c = '\x0b' || c = '\x0c'

def isPyWord (c : Char) : Bool :=
  c.isAlpha || c.isDigit || c = '_'

/-- The `\w--?\w` alternative of group 2 at the current position: a word
character, a literal hyphen, a greedy optional second hyphen, and a word
character. -/
def hyphenAt : List Char → Option (List Char)
  | a :: '-' :: '-' :: b :: _ =>
    if isPyWord a && isPyWord b then some [a, '-', '-', b] else none
  | [a, '-', '-'] =>
    -- the 4-char form runs out of input and the 3-char fallback needs `\w`
    -- where the second '-' sits, so this cannot match
    if isPyWord a then none else none
  | a :: '-' :: b :: _ =>
    if isPyWord a && isPyWord b then some [a, '-', b] else none
  | _ => none

/-- Group 2 alternatives `\s` then `\w--?\w` at a position (not `$`). -/
def breakAt (s : List Char) : Option (List Char) :=
  match s with
  | [] => none
  | c :: _ => if isPySpace c then some [c] else hyphenAt s

/-- Number of leading characters matchable by `.` (anything but newline). -/
def nonNlLen : List Char → Nat
  | [] => 0
  | c :: r => if c = '\n' then 0 else nonNlLen r + 1

/-- Try group-1 lengths `k, k-1, ..., 0`; at each, group 2 alternatives in
order, with `$` (encoded as `[]`) succeeding only at end of input.  Returns
the matched `(group1 length, group2 characters)`. -/
def tryMatchK (s : List Char) : Nat → Option (Nat × List Char)
  | 0 =>
    (match breakAt s with
     | some g2 => some (0, g2)
     | none => if s = [] then some (0, []) else none)
  | k + 1 =>
    (match breakAt (s.drop (k + 1)) with
     | some g2 => some (k + 1, g2)
     | none =>
       if s.drop (k + 1) = [] then some (k + 1, [])
       else tryMatchK s k)

/-- First match of `(.{,W})(\s|(\w--?\w)|$)` at the head of `s`. -/
def tryMatch (W : Nat) (s : List Char) : Option (Nat × List Char) :=
  tryMatchK s (min W (nonNlLen s))

/-- The global `re.sub` scan of `constrain`.  `adj` records whether the
previous step ended with a match at the current position (Python suppresses
an empty match adjacent to a previous match).  Fuel is the input length plus
one; every step either copies one unmatched character or consumes a
non-empty match. -/
def constrainGo (W : Nat) : Nat → List Char → Bool → List Char
  | 0, _, _ => []
  | _ + 1, [], adj => if adj then [] else ['\n']
  | fuel + 1, c :: rest, _ =>
    match tryMatch W (c :: rest) with
    | none => c :: constrainGo W fuel rest false
    | some (k, g2) =>
      if g2.length < 2 then
        -- whitespace or end-of-input break: `m.group(1) + "\n"`
        (c :: rest).take k ++ '\n' ::
          constrainGo W fuel ((c :: rest).drop (k + g2.length)) true
      else
        -- hyphen break: `m.group(1)+m.group(2)[:-1]+"\n"+m.group(2)[-1:]`
        (c :: rest).take k ++ g2.dropLast ++ '\n' :: g2.drop (g2.length - 1) ++
          constrainGo W fuel ((c :: rest).drop (k + g2.length)) true

/-- A line that "has at least two pipes" gets its spaces protected with a
placeholder character (backtick, written via its code point) so frames are
never split (text.py lines 661-669). -/
def tickChar : Char := Char.ofNat 96

def protectLine (l : List Char) : List Char :=
  if 2 ≤ l.count '|' then l.map (fun c => if c = ' ' then tickChar else c) else l

def protectPipes (s : List Char) : List Char :=
  joinNL ((textLines s).map protectLine)

/-- Reverting the placeholder: `re.sub("`", " ", text)`. -/
def unprotectChar (c : Char) : Char := if c = tickChar then ' ' else c

/-- `constrain(text, width)`: trim lines to a maximum of `width` characters
(text.py lines 647-688). -/
def constrain (text : List Char) (width : Int) : List Char :=
  let prot := protectPipes text
  let sub :=
    if width < 0 then prot
    else constrainGo width.toNat (prot.length + 1) prot false
  stripTrailingNl (sub.map unprotectChar)

/-- Length of the leading run of non-whitespace characters (used to state
what the wrapper guarantees: a break point exists within reach). -/
def runLen : List Char → Nat
  | [] => 0
  | c :: r => if isPySpace c then 0 else runLen r + 1

/-- Every maximal whitespace-free run of the text has length at most `W`
(equivalently: every suffix's leading run is short enough). -/
def runsOK (W : Nat) : List Char → Bool
  | [] => true
  | c :: r => decide (runLen (c :: r) ≤ W) && runsOK W r

/-! ### The frame engine: `frame(text, width, height, padding, topFrame,
botFrame, leftFrame, rightFrame)` (text.py lines 691-838)

All remaining substitutions of the source carry `re.M` and rewrite each line
independently (each pattern is anchored at `^` and cannot cross a newline,
and no two matches of any of them can be adjacent), so after `constrain` we
work on the list of lines and only return to a flat string where the source
does (`str.split("\n", maxsplit)` inside the fixed-height block). -/

/-- `text = " "+" "*(width-fNum-padding*4)` for empty input (line 763). -/
def emptyReplace (width fNum padding : Int) : List Char :=
  ' ' :: List.replicate (width - fNum - padding * 4).toNat ' '

/-- Length of the longest line, used for `width < 0` auto-width (765-772). -/
def maxLineLen (text : List Char) : Nat :=
  ((textLines text).map List.length).foldr max 0

/-- `re.sub(r"^", "  "*padding, text, flags=re.M)` on one line (line 780). -/
def leftPadLine (padding : Int) (l : List Char) : List Char :=
  List.replicate (2 * padding).toNat ' ' ++ l

/-- `re.sub(r"(^.{,W2})", r"\1" + " "*width, text, flags=re.M)` on one line
(line 793): insert `width` spaces after the first `min W2 (length)`
characters.  When `W2 < 0` the quantifier `{,W2}` is invalid, Python keeps
the braces literal and the substitution matches nothing framed text ever
contains; modelled as the identity. -/
def insertSpaces (width W2 : Int) (l : List Char) : List Char :=
  if 0 ≤ W2 then l.take W2.toNat ++ List.replicate width.toNat ' ' ++ l.drop W2.toNat
  else l

/-- `re.sub(r"(^.{n}).*", pipes..., flags=re.M)` on one line (line 799):
lines shorter than `n` do not match and stay unchanged. -/
def sidePipes (n : Nat) (lF rF : Bool) (l : List Char) : List Char :=
  if n ≤ l.length then
    (if lF then ['|'] else []) ++ l.take n ++ (if rF then ['|'] else [])
  else l

/-- The `if leftFrame or rightFrame` block (lines 788-807) with its four
interior-width cases. -/
def sideFrameLines (width padding fNum : Int) (lF rF : Bool)
    (ls : List (List Char)) : List (List Char) :=
  let ls1 := ls.map (insertSpaces width (width - 2 * padding - fNum))
  if width - fNum > 0 then ls1.map (sidePipes (width - fNum).toNat lF rF)
  else if width - fNum = 0 then ls1.map (fun _ => ['|', '|'])
  else if width - fNum = -1 then ls1.map (fun _ => ['|'])
  else ls1.map (fun _ => [])

/-- The top border line (lines 813-819); the bottom border (827-836) builds
exactly the same line shapes, so both use this.  For interior width below
`-1` no border line exists. -/
def borderLines (width fNum : Int) (lF rF : Bool) : List (List Char) :=
  if width - fNum > 0 then
    [(if lF then '+' else '-') ::
      (List.replicate (width - 2).toNat '-' ++ [if rF then '+' else '-'])]
  else if width - fNum = 0 then
    [[(if lF then '+' else '-'), (if rF then '+' else '-')]]
  else if width - fNum = -1 then
    [[if lF || rF then '+' else '-']]
  else []

/-- One appended blank interior line of the fixed-height block (line 822). -/
def blankLine (width fNum : Int) (lF rF : Bool) : List Char :=
  (if lF then ['|'] else []) ++ List.replicate (width - fNum).toNat ' ' ++
    (if rF then ['|'] else [])

/-- One re-appended padding line (line 825); note the source writes the
pipes unconditionally here. -/
def padLineHB (width fNum : Int) : List Char :=
  '|' :: (List.replicate (width - fNum).toNat ' ' ++ ['|'])

/-- The `if height > -1` block (lines 821-825): append `height` blank
bordered lines, split with maxsplit `height + topFrame`, drop the last
`1 + padding + botFrame + topFrame` parts (Python `temp[:-K]`), re-join, and
re-append `padding` pipe lines.  `"\n".join` of no parts is the empty
string, which is one empty line. -/
def heightAdjust (width fNum height padding : Int) (tF bF lF rF : Bool)
    (ls : List (List Char)) : List (List Char) :=
  let lsA := ls ++ List.replicate height.toNat (blankLine width fNum lF rF)
  let m := (height + bt tF).toNat
  let parts := if lsA.length ≤ m + 1 then lsA else lsA.take m ++ [joinNL (lsA.drop m)]
  let kept := parts.take (parts.length - (1 + padding + bt bF + bt tF).toNat)
  let kept1 := if kept = [] then [[]] else kept
  kept1 ++ List.replicate padding.toNat (padLineHB width fNum)

/-- `frame`, producing the list of output lines. -/
def frameL (text : List Char) (width height padding : Int)
    (tF bF lF rF : Bool) : List (List Char) :=
  -- padding < 0 is the "no borders, no padding" sentinel (lines 752-757)
  let p := if padding < 0 then 0 else padding
  let tF1 := if padding < 0 then false else tF
  let bF1 := if padding < 0 then false else bF
  let lF1 := if padding < 0 then false else lF
  let rF1 := if padding < 0 then false else rF
  let fNum : Int := bt lF1 + bt rF1
  let text1 := if text.length < 1 then emptyReplace width fNum p else text
  let w := if width < 0 then Int.ofNat (maxLineLen text1) + 4 * p + fNum else width
  let text2 := constrain text1 (w - 4 * p - fNum)
  let ls1 := (textLines text2).map (leftPadLine p)
  -- top and bottom padding: `"\n"*padding + text + "\n"*padding` (line 783)
  let ls2 := List.replicate p.toNat ([] : List Char) ++ ls1 ++
    List.replicate p.toNat ([] : List Char)
  let ls3 := if lF1 || rF1 then sideFrameLines w p fNum lF1 rF1 ls2 else ls2
  let ls4 := if tF1 then borderLines w fNum lF1 rF1 ++ ls3 else ls3
  let ls5 := if height > -1 then heightAdjust w fNum height p tF1 bF1 lF1 rF1 ls4 else ls4
  if bF1 then ls5 ++ borderLines w fNum lF1 rF1 else ls5

/-- `frame` as the source returns it: a single string. -/
def frame (text : List Char) (width height padding : Int)
    (tF bF lF rF : Bool) : List Char :=
  joinNL (frameL text width height padding tF bF lF rF)

/-! ### The panel tree (text.py lines 74-359)

A `Panel` keeps the scalar fields of the Python object; the `daughters`
list and the `parent` back-pointer are represented by the tree structure
`PanelTree`, and a panel inside a tree is addressed by its path of child
indices from the root (`self.find_origin()` is the tree's root, the empty
path).  `self.index` is always 0 in the source and never read; it is
omitted.

Python exceptions are explicit: `PErr.panelError` is a raised `PanelError`
(the spec's `InvalidOperation`), `PErr.notFound` the `ValueError` raised by
name lookup (the spec's `NotFound`), and `PErr.pyCrash` an unhandled Python
error such as the `AttributeError` from calling a method on `None`.  In the
source a crash can leave earlier in-place mutations behind; no claim below
inspects state after a crash, so an error result carries no tree. -/

structure Panel where
  name : String
  content : String
  width : Int
  percent : Int
  height : Int
  padding : Int
  topFrame : Bool
  botFrame : Bool
  leftFrame : Bool
  rightFrame : Bool
  horizontal : Bool
  vertical : Bool
deriving DecidableEq

inductive PanelTree where
  | node (panel : Panel) (daughters : List PanelTree)

inductive PErr where
  | panelError (msg : String)
  | notFound (msg : String)
  | pyCrash (msg : String)
deriving DecidableEq

def PanelTree.panel : PanelTree → Panel
  | .node p _ => p

def PanelTree.daughters : PanelTree → List PanelTree
  | .node _ ds => ds

def mapPanel (f : Panel → Panel) : PanelTree → PanelTree
  | .node p ds => .node (f p) ds

/-- Subtree at a path of child indices. -/
def nodeAt : List Nat → PanelTree → Option PanelTree
  | [], t => some t
  | i :: rest, .node _ ds =>
    match ds.get? i with
    | none => none
    | some d => nodeAt rest d

/-- The scalar fields of the panel at a path. -/
def panelAt (t : PanelTree) (q : List Nat) : Option Panel :=
  (nodeAt q t).map PanelTree.panel

/-- Rebuild the tree with the subtree at `path` transformed by `f`
(modelling a method call on the panel object at that path; an invalid path
cannot arise from the source's object graph). -/
def modifyAtP (f : PanelTree → Except PErr PanelTree) :
    List Nat → PanelTree → Except PErr PanelTree
  | [], t => f t
  | i :: rest, .node p ds =>
    match ds.get? i with
    | none => .error (.pyCrash "invalid child index")
    | some d =>
      match modifyAtP f rest d with
      | .error e => .error e
      | .ok d1 => .ok (.node p (ds.set i d1))

/-- Update one list element in place. -/
def modifyIdx : List PanelTree → Nat → (PanelTree → PanelTree) → List PanelTree
  | [], _, _ => []
  | x :: xs, 0, f => f x :: xs
  | x :: xs, n + 1, f => x :: modifyIdx xs n f

/-! #### `seal` (lines 304-359)

Numeric fidelity: Python 2 `/` on ints floors (`Int.fdiv`); the free-share
`int(round(float(parentWidth * (1 - float(S)/100)) / numFree))` is the
rational `parentWidth*(100-S)/(100*numFree)` rounded half away from zero
(Python 2 `round`), see the header note on floating point.  The debug
`print` in the vertical branch is a side effect with no bearing on state. -/

/-- `int(round(num/den))` for `den > 0`, rounding half away from zero. -/
def roundHalfAway (num den : Int) : Int :=
  if 0 ≤ num then (2 * num + den).fdiv (2 * den)
  else -((2 * (-num) + den).fdiv (2 * den))

/-- `sum([elem.percent for elem in self.daughters if elem.percent >= 0])`. -/
def sumSetPercents (ds : List PanelTree) : Int :=
  ((ds.filter (fun d => 0 ≤ d.panel.percent)).map (fun d => d.panel.percent)).sum

/-- `len([elem for elem in self.daughters if elem.percent < 0])`. -/
def freeCount (ds : List PanelTree) : Nat :=
  (ds.filter (fun d => d.panel.percent < 0)).length

/-- Index of `freeDaughters[-1]` (the last daughter with unset percent);
the `freeDaughters` list is built before normalization, but normalization
never changes which daughters are free. -/
def lastFreeIdx : List PanelTree → Option Nat
  | [] => none
  | d :: rest =>
    match lastFreeIdx rest with
    | some j => some (j + 1)
    | none => if d.panel.percent < 0 then some 0 else none

/-- The (buggy) normalization of lines 321-324: every daughter with a
positive percent gets `percent / daughtersPercent` (Python 2 integer
division). -/
def normDaughter (S : Int) : PanelTree → PanelTree :=
  mapPanel (fun q => if 0 < q.percent then { q with percent := q.percent.fdiv S } else q)

def sumWidths (ds : List PanelTree) : Int :=
  (ds.map (fun d => d.panel.width)).sum

def sumHeights (ds : List PanelTree) : Int :=
  (ds.map (fun d => d.panel.height)).sum

/-- Horizontal assignment (lines 333-339). -/
def assignH (pw ph S nf : Int) : PanelTree → PanelTree :=
  mapPanel (fun q =>
    { q with
      height := ph,
      width := if q.percent < 0 then roundHalfAway (pw * (100 - S)) (100 * nf)
               else (pw * q.percent).fdiv 100 })

/-- Vertical assignment (lines 345-351). -/
def assignV (pw ph S nf : Int) : PanelTree → PanelTree :=
  mapPanel (fun q =>
    { q with
      width := pw,
      height := if q.percent < 0 then roundHalfAway (ph * (100 - S)) (100 * nf)
                else (ph * q.percent).fdiv 100 })

def addWidth (delta : Int) : PanelTree → PanelTree :=
  mapPanel (fun q => { q with width := q.width + delta })

def addHeight (delta : Int) : PanelTree → PanelTree :=
  mapPanel (fun q => { q with height := q.height + delta })

/-- `freeDaughters[-1].width += parentWidth - daughtersWidth` (341-342). -/
def absorbW (pw : Int) (j : Option Nat) (ds : List PanelTree) : List PanelTree :=
  match j with
  | none => ds
  | some j => modifyIdx ds j (addWidth (pw - sumWidths ds))

/-- `freeDaughters[-1].height += parentHeight - daughtersHeight` (354-356). -/
def absorbH (ph : Int) (j : Option Nat) (ds : List PanelTree) : List PanelTree :=
  match j with
  | none => ds
  | some j => modifyIdx ds j (addHeight (ph - sumHeights ds))

/-- `Panel.seal(complete=True)`: expands daughter panels to fill the
parent; recomputes only the immediate daughters' geometry.  (`seal` is a
Lean command keyword, hence the name `sealNode`.) -/
def sealNode (complete : Bool) : PanelTree → Except PErr PanelTree
  | .node p ds =>
    if ds.isEmpty then .error (.panelError "Panel has no daughters with which to seal.")
    else
      let parentHeight := p.height - bt p.topFrame - bt p.botFrame - p.padding * 2
      let parentWidth := p.width - bt p.leftFrame - bt p.rightFrame - p.padding * 4
      let daughtersPercent := sumSetPercents ds
      let ds1 := if 100 < daughtersPercent then ds.map (normDaughter daughtersPercent) else ds
      let nf : Int := Int.ofNat (freeCount ds)
      if p.horizontal then
        let ds2 := ds1.map (assignH parentWidth parentHeight daughtersPercent nf)
        let ds3 := if complete ∧ freeCount ds ≠ 0 then
            absorbW parentWidth (lastFreeIdx ds) ds2
          else ds2
        .ok (.node p ds3)
      else if p.vertical then
        let ds2 := ds1.map (assignV parentWidth parentHeight daughtersPercent nf)
        let ds3 := if complete ∧ freeCount ds ≠ 0 then
            absorbH parentHeight (lastFreeIdx ds) ds2
          else ds2
        .ok (.node p ds3)
      else .error (.panelError "Panel has no direction.")

/-! #### `set_percent` (137-141), `__getitem__` (106-117),
`__setitem__` (119-128), `subdivide` (172-234) -/

def setPercentPanel (v : Int) : PanelTree → PanelTree :=
  mapPanel (fun q => { q with percent := v })

/-- `set_percent` on the panel at `path`: store the percent, then
`self.parent.seal()`.  On the root the parent is `None` and Python raises
an unhandled `AttributeError` (the percent was already stored in place; no
claim inspects post-crash state). -/
def setPercentAt (t : PanelTree) (path : List Nat) (v : Int) : Except PErr PanelTree :=
  match path with
  | [] => .error (.pyCrash "AttributeError: NoneType object has no attribute seal")
  | _ :: _ =>
    match modifyAtP (fun u => .ok (setPercentPanel v u)) path t with
    | .error e => .error e
    | .ok t1 => modifyAtP (sealNode true) path.dropLast t1

mutual
/-- `__getitem__`: first match in a depth-first search that tests the node
itself before its daughters, returned as a path. -/
def findPath : PanelTree → String → Option (List Nat)
  | .node p ds, key => if p.name = key then some [] else findPathList ds key

def findPathList : List PanelTree → String → Option (List Nat)
  | [], _ => none
  | d :: rest, key =>
    match findPath d key with
    | some q => some (0 :: q)
    | none =>
      match findPathList rest key with
      | some [] => some []
      | some (i :: q) => some ((i + 1) :: q)
      | none => none
end

/-- The values `__setitem__` dispatches on (`isinstance(value, int)` /
`isinstance(value, str)`; anything else raises `PanelError`, not modelled
because no claim passes another type). -/
inductive PyVal where
  | pint (n : Int)
  | pstr (s : String)

/-- `panel[key] = value`. -/
def setItem (t : PanelTree) (key : String) (v : PyVal) : Except PErr PanelTree :=
  match findPath t key with
  | none => .error (.notFound ("No panel named '" ++ key ++ "' was found."))
  | some path =>
    match v with
    | .pint n => setPercentAt t path n
    | .pstr s =>
      match nodeAt path t with
      | none => .error (.pyCrash "invalid child index")
      | some u =>
        if u.panel.horizontal || u.panel.vertical then
          .error (.panelError "Subdivided panels cannot hold content.")
        else
          modifyAtP (fun x => .ok (mapPanel (fun q => { q with content := s }) x)) path t

/-- One new daughter of `subdivide` (lines 207-229).  The `padding` and
frame-flag parameters of `subdivide` are accepted but never read by the
source: every daughter inherits `self.padding` and `self.*Frame`. -/
def mkDaughter (p : Panel) (horizontal : Bool) (width height subdivisions : Int)
    (i : Nat) : PanelTree :=
  let availableWidth := p.width - bt p.leftFrame - bt p.rightFrame - 4 * p.padding
  let availableHeight := p.height - bt p.topFrame - bt p.botFrame - 2 * p.padding
  .node
    { name := p.name ++ "'s #" ++ toString (i + 1) ++ " daughter"
      content := ""
      width :=
        if horizontal then (if width < 0 then availableWidth.fdiv subdivisions else width)
        else (if width < 0 then availableWidth else width)
      percent := -1
      height :=
        if horizontal then (if height < 0 then availableHeight else height)
        else (if height < 0 then availableHeight.fdiv subdivisions else height)
      padding := p.padding
      topFrame := p.topFrame
      botFrame := p.botFrame
      leftFrame := p.leftFrame
      rightFrame := p.rightFrame
      horizontal := false
      vertical := false } []

/-- The checks and daughter construction of `subdivide` on the panel
itself; both failure checks run before any mutation, so a failed subdivide
creates no daughters. -/
def subdivideNode (subdivisions : Int) (names : List String) (horizontal : Bool)
    (width height : Int) : PanelTree → Except PErr PanelTree
  | .node p _ =>
    if p.content ≠ "" then
      .error (.panelError "Panels with content cannot be subdivided.")
    else if names ≠ [] ∧ (names.length : Int) ≠ subdivisions then
      .error (.panelError "The number of names should be equal to the number of subdivisions")
    else
      let p1 := if horizontal then { p with horizontal := true, vertical := false }
                else { p with horizontal := false, vertical := true }
      .ok (.node p1 ((List.range subdivisions.toNat).map
        (mkDaughter p1 horizontal width height subdivisions)))

/-- Positional renaming from `names` (lines 231-233); `names` longer than
the daughter list would be a Python `IndexError`, unreachable past the
length check. -/
def applyNames : List String → List PanelTree → List PanelTree
  | [], ds => ds
  | _ :: _, [] => []
  | n :: ns, d :: ds => mapPanel (fun q => { q with name := n }) d :: applyNames ns ds

/-- `subdivide` on the panel at `path`: checks and daughter creation, then
`self.origin.seal()` — a reflow of the root's immediate daughters only —
then the optional renaming. -/
def subdivideAt (t : PanelTree) (path : List Nat) (subdivisions : Int)
    (names : List String) (horizontal : Bool) (width height : Int) :
    Except PErr PanelTree :=
  match modifyAtP (subdivideNode subdivisions names horizontal width height) path t with
  | .error e => .error e
  | .ok t1 =>
    match sealNode true t1 with
    | .error e => .error e
    | .ok t2 => modifyAtP (fun u => .ok (.node u.panel (applyNames names u.daughters))) path t2

/-! ### Observation helpers used by the theorems below -/

def percentOf (d : PanelTree) : Int := d.panel.percent

def daughterPercents (t : PanelTree) : List Int := t.daughters.map percentOf

def daughterWidths (t : PanelTree) : List Int := t.daughters.map (fun d => d.panel.width)

def daughterHeights (t : PanelTree) : List Int := t.daughters.map (fun d => d.panel.height)

/-- The parent's interior extent along its stacking axis. -/
def interiorStack (p : Panel) : Int :=
  if p.horizontal then p.width - bt p.leftFrame - bt p.rightFrame - p.padding * 4
  else p.height - bt p.topFrame - bt p.botFrame - p.padding * 2

/-- Sum of the daughters' extents along the parent's stacking axis. -/
def sumStack (p : Panel) (ds : List PanelTree) : Int :=
  if p.horizontal then sumWidths ds else sumHeights ds

/-- `lastFreeIdx` on the bare percent list. -/
def lastNegIdx : List Int → Option Nat
  | [] => none
  | v :: rest =>
    match lastNegIdx rest with
    | some j => some (j + 1)
    | none => if v < 0 then some 0 else none

/-! ### Concrete panel trees used by counterexamples and witnesses -/

/-- A leaf panel: all frames on, padding 0, no content. -/
def leafP (nm : String) (w h pc : Int) : PanelTree :=
  .node ⟨nm, "", w, pc, h, 0, true, true, true, true, false, false⟩ []

/-- A horizontal container: all frames on, padding 0. -/
def hboxP (nm : String) (w h : Int) (ds : List PanelTree) : PanelTree :=
  .node ⟨nm, "", w, -1, h, 0, true, true, true, true, true, false⟩ ds

/-- C1 counterexample: interior width 10, both daughters with explicit
percents 30 and 30; seal leaves 3 + 3 = 6 ≠ 10. -/
def tC1all : PanelTree := hboxP "root" 12 12 [leafP "a" 3 3 30, leafP "b" 4 4 30]

/-- C1 witness input: one daughter with percent 30, one without. -/
def tC1free : PanelTree := hboxP "root" 12 12 [leafP "a" 0 0 30, leafP "b" 0 0 (-1)]

/-- C3 failing input: two daughters with percent 60 each (sum 120). -/
def tC3 : PanelTree := hboxP "root" 12 12 [leafP "a" 3 3 60, leafP "b" 4 4 60]

/-- C7 counterexample: percents 60, 60, unset, unset; interior width 100.
The first seal normalizes the 60s to 0 and computes the free share from the
stale sum 120; the second computes it from the new sum 0. -/
def tC7 : PanelTree :=
  hboxP "root" 102 12
    [leafP "a" 1 1 60, leafP "b" 1 1 60, leafP "c" 1 1 (-1), leafP "d" 1 1 (-1)]

/-- C7 witness input: percents 50 and unset (sum ≤ 100). -/
def tC7ok : PanelTree := hboxP "root" 12 12 [leafP "a" 0 0 50, leafP "b" 0 0 (-1)]

/-- C9 witness inputs: a leaf already holding content, and an empty leaf. -/
def tC9content : PanelTree :=
  .node ⟨"leaf", "hello", 10, -1, 10, 0, true, true, true, true, false, false⟩ []

def tC9empty : PanelTree :=
  .node ⟨"leaf", "", 10, -1, 10, 0, true, true, true, true, false, false⟩ []

/-- `pathStarts a b`: the path `b` starts with (lies in the subtree at)
`a`. -/
def pathStarts : List Nat → List Nat → Bool
  | [], _ => true
  | _ :: _, [] => false
  | i :: a, j :: b => i == j && pathStarts a b

/-- C6 depth-2 tree: the root holds containers `A` (with daughters `A1`,
`A2`) and leaf `B`; `A`'s width 7 is deliberately not what a root reflow
would assign (5), so the two reflow roots are distinguishable. -/
def tC6 : PanelTree :=
  .node ⟨"root", "", 12, -1, 12, 0, true, true, true, true, true, false⟩
    [.node ⟨"A", "", 7, -1, 10, 0, true, true, true, true, true, false⟩
       [leafP "A1" 2 2 (-1), leafP "A2" 2 2 (-1)],
     leafP "B" 3 10 (-1)]

/-- The successful result of a seal, as an `Option` (for concrete
evaluation in counterexamples and witnesses). -/
def okView (r : Except PErr PanelTree) : Option PanelTree :=
  match r with
  | .ok t => some t
  | .error _ => none

/-- The daughter list computed by the horizontal branch of `sealNode` with
`complete = True` (spelled out once, proved equal to `sealNode` below). -/
def sealH (p : Panel) (ds : List PanelTree) : List PanelTree :=
  let parentHeight := p.height - bt p.topFrame - bt p.botFrame - p.padding * 2
  let parentWidth := p.width - bt p.leftFrame - bt p.rightFrame - p.padding * 4
  let S := sumSetPercents ds
  let ds1 := if 100 < S then ds.map (normDaughter S) else ds
  let ds2 := ds1.map (assignH parentWidth parentHeight S (Int.ofNat (freeCount ds)))
  if freeCount ds ≠ 0 then absorbW parentWidth (lastFreeIdx ds) ds2 else ds2

/-- The daughter list computed by the vertical branch of `sealNode` with
`complete = True`. -/
def sealV (p : Panel) (ds : List PanelTree) : List PanelTree :=
  let parentHeight := p.height - bt p.topFrame - bt p.botFrame - p.padding * 2
  let parentWidth := p.width - bt p.leftFrame - bt p.rightFrame - p.padding * 4
  let S := sumSetPercents ds
  let ds1 := if 100 < S then ds.map (normDaughter S) else ds
  let ds2 := ds1.map (assignV parentWidth parentHeight S (Int.ofNat (freeCount ds)))
  if freeCount ds ≠ 0 then absorbH parentHeight (lastFreeIdx ds) ds2 else ds2

end TextPy

/-! ## Theorems -/

namespace TextPy

/-! ### List plumbing for `sealNode` -/

theorem percentOf_mapPanel (f : Panel → Panel)
    (hf : ∀ q, (f q).percent = q.percent) (d : PanelTree) :
    percentOf (mapPanel f d) = percentOf d := by
  cases d with
  | node p ds => simp [percentOf, mapPanel, PanelTree.panel, hf]

theorem percentOf_assignH (pw ph S nf : Int) (d : PanelTree) :
    percentOf (assignH pw ph S nf d) = percentOf d := by
  apply percentOf_mapPanel; intro q; rfl

theorem percentOf_assignV (pw ph S nf : Int) (d : PanelTree) :
    percentOf (assignV pw ph S nf d) = percentOf d := by
  apply percentOf_mapPanel; intro q; rfl

theorem percentOf_addWidth (delta : Int) (d : PanelTree) :
    percentOf (addWidth delta d) = percentOf d := by
  apply percentOf_mapPanel; intro q; rfl

theorem percentOf_addHeight (delta : Int) (d : PanelTree) :
    percentOf (addHeight delta d) = percentOf d := by
  apply percentOf_mapPanel; intro q; rfl

theorem map_percentOf_map (f : PanelTree → PanelTree)
    (hf : ∀ d, percentOf (f d) = percentOf d) (l : List PanelTree) :
    (l.map f).map percentOf = l.map percentOf := by
  induction l with
  | nil => rfl
  | cons d rest ih => simp [hf, ih]

theorem map_percentOf_modifyIdx (f : PanelTree → PanelTree)
    (hf : ∀ d, percentOf (f d) = percentOf d) (l : List PanelTree) (j : Nat) :
    (modifyIdx l j f).map percentOf = l.map percentOf := by
  induction l generalizing j with
  | nil => rfl
  | cons d rest ih =>
    cases j with
    | zero => simp [modifyIdx, hf]
    | succ j => simp [modifyIdx, ih]

theorem sumSetPercents_factor (l : List PanelTree) :
    sumSetPercents l = ((l.map percentOf).filter (fun v => 0 ≤ v)).sum := by
  induction l with
  | nil => rfl
  | cons d rest ih =>
    by_cases h : (0 : Int) ≤ d.panel.percent <;>
      simp [sumSetPercents, percentOf, h, List.filter, decide_eq_true_eq] at * <;>
      simpa [sumSetPercents] using ih

theorem freeCount_factor (l : List PanelTree) :
    freeCount l = ((l.map percentOf).filter (fun v => v < 0)).length := by
  induction l with
  | nil => rfl
  | cons d rest ih =>
    by_cases h : d.panel.percent < 0 <;>
      simp [freeCount, percentOf, h, List.filter, decide_eq_true_eq] at * <;>
      simpa [freeCount] using ih

theorem lastFreeIdx_factor (l : List PanelTree) :
    lastFreeIdx l = lastNegIdx (l.map percentOf) := by
  induction l with
  | nil => rfl
  | cons d rest ih => simp [lastFreeIdx, lastNegIdx, ih, percentOf]

theorem length_modifyIdx (l : List PanelTree) (j : Nat) (f : PanelTree → PanelTree) :
    (modifyIdx l j f).length = l.length := by
  induction l generalizing j with
  | nil => rfl
  | cons d rest ih =>
    cases j with
    | zero => simp [modifyIdx]
    | succ j => simp [modifyIdx, ih]

theorem lastNegIdx_lt_length (l : List Int) (j : Nat)
    (h : lastNegIdx l = some j) : j < l.length := by
  induction l generalizing j with
  | nil => simp [lastNegIdx] at h
  | cons v rest ih =>
    simp only [lastNegIdx] at h
    cases hrest : lastNegIdx rest with
    | some j0 =>
      rw [hrest] at h
      cases h
      simpa using Nat.succ_lt_succ (ih j0 hrest)
    | none =>
      rw [hrest] at h
      by_cases hv : v < 0
      · rw [if_pos hv] at h
        cases h
        simp
      · rw [if_neg hv] at h
        cases h

theorem lastNegIdx_of_mem_neg (l : List Int) (hneg : ∃ v ∈ l, v < 0) :
    ∃ j, lastNegIdx l = some j := by
  induction l with
  | nil => simp at hneg
  | cons v rest ih =>
    simp only [lastNegIdx]
    cases hrest : lastNegIdx rest with
    | some j0 => exact ⟨j0 + 1, rfl⟩
    | none =>
      rcases hneg with ⟨w, hw, hwneg⟩
      rcases List.mem_cons.mp hw with rfl | hmem
      · exact ⟨0, by simp [hwneg]⟩
      · rcases ih ⟨w, hmem, hwneg⟩ with ⟨j, hj⟩
        rw [hrest] at hj; cases hj

theorem freeCount_pos_neg_mem (ds : List PanelTree) (h : freeCount ds ≠ 0) :
    ∃ v ∈ ds.map percentOf, v < 0 := by
  rw [freeCount_factor] at h
  rcases List.exists_mem_of_length_pos (Nat.pos_of_ne_zero h) with ⟨v, hv⟩
  exact ⟨v, (List.mem_filter.mp hv).1, by
    have := (List.mem_filter.mp hv).2
    simpa using this⟩

theorem sumWidths_modifyIdx_add (l : List PanelTree) (j : Nat) (delta : Int)
    (hj : j < l.length) :
    sumWidths (modifyIdx l j (addWidth delta)) = sumWidths l + delta := by
  induction l generalizing j with
  | nil => simp at hj
  | cons d rest ih =>
    cases j with
    | zero =>
      cases d with
      | node p ds =>
        simp [modifyIdx, sumWidths, addWidth, mapPanel, PanelTree.panel]
        ring
    | succ j =>
      have hj' : j < rest.length := by simpa using hj
      simp [modifyIdx, sumWidths] at *
      rw [ih j hj']
      ring

theorem sumHeights_modifyIdx_add (l : List PanelTree) (j : Nat) (delta : Int)
    (hj : j < l.length) :
    sumHeights (modifyIdx l j (addHeight delta)) = sumHeights l + delta := by
  induction l generalizing j with
  | nil => simp at hj
  | cons d rest ih =>
    cases j with
    | zero =>
      cases d with
      | node p ds =>
        simp [modifyIdx, sumHeights, addHeight, mapPanel, PanelTree.panel]
        ring
    | succ j =>
      have hj' : j < rest.length := by simpa using hj
      simp [modifyIdx, sumHeights] at *
      rw [ih j hj']
      ring

/-! ### Branch characterizations of `sealNode` -/

theorem sealNode_nil (c : Bool) (p : Panel) :
    sealNode c (.node p []) =
      .error (.panelError "Panel has no daughters with which to seal.") := by
  simp [sealNode]

theorem sealNode_noDir (c : Bool) (p : Panel) (ds : List PanelTree)
    (hne : ds ≠ []) (hh : p.horizontal = false) (hv : p.vertical = false) :
    sealNode c (.node p ds) = .error (.panelError "Panel has no direction.") := by
  simp [sealNode, hh, hv, List.isEmpty_iff, hne]

theorem sealNode_h_eq (p : Panel) (ds : List PanelTree)
    (hne : ds ≠ []) (hh : p.horizontal = true) :
    sealNode true (.node p ds) = .ok (.node p (sealH p ds)) := by
  simp [sealNode, sealH, hh, List.isEmpty_iff, hne]

theorem sealNode_v_eq (p : Panel) (ds : List PanelTree)
    (hne : ds ≠ []) (hh : p.horizontal = false) (hv : p.vertical = true) :
    sealNode true (.node p ds) = .ok (.node p (sealV p ds)) := by
  simp [sealNode, sealV, hh, hv, List.isEmpty_iff, hne]

theorem sumWidths_sealH (p : Panel) (ds : List PanelTree)
    (hfree : freeCount ds ≠ 0) :
    sumWidths (sealH p ds) =
      p.width - bt p.leftFrame - bt p.rightFrame - p.padding * 4 := by
  rcases lastNegIdx_of_mem_neg _ (freeCount_pos_neg_mem ds hfree) with ⟨j, hj⟩
  have hjlen : j < ds.length := by
    have := lastNegIdx_lt_length _ _ hj
    simpa using this
  rw [sealH]
  simp only [if_pos hfree, lastFreeIdx_factor, hj, absorbW]
  set pw := p.width - bt p.leftFrame - bt p.rightFrame - p.padding * 4 with hpw
  set ds2 := (if 100 < sumSetPercents ds then ds.map (normDaughter (sumSetPercents ds)) else ds).map
      (assignH pw (p.height - bt p.topFrame - bt p.botFrame - p.padding * 2)
        (sumSetPercents ds) (Int.ofNat (freeCount ds))) with hds2
  have hlen2 : ds2.length = ds.length := by
    rw [hds2]
    by_cases hS : 100 < sumSetPercents ds <;> simp [hS]
  rw [sumWidths_modifyIdx_add ds2 j _ (by omega)]
  ring

theorem sumHeights_sealV (p : Panel) (ds : List PanelTree)
    (hfree : freeCount ds ≠ 0) :
    sumHeights (sealV p ds) =
      p.height - bt p.topFrame - bt p.botFrame - p.padding * 2 := by
  rcases lastNegIdx_of_mem_neg _ (freeCount_pos_neg_mem ds hfree) with ⟨j, hj⟩
  have hjlen : j < ds.length := by
    have := lastNegIdx_lt_length _ _ hj
    simpa using this
  rw [sealV]
  simp only [if_pos hfree, lastFreeIdx_factor, hj, absorbH]
  set ph := p.height - bt p.topFrame - bt p.botFrame - p.padding * 2 with hph
  set ds2 := (if 100 < sumSetPercents ds then ds.map (normDaughter (sumSetPercents ds)) else ds).map
      (assignV (p.width - bt p.leftFrame - bt p.rightFrame - p.padding * 4) ph
        (sumSetPercents ds) (Int.ofNat (freeCount ds))) with hds2
  have hlen2 : ds2.length = ds.length := by
    rw [hds2]
    by_cases hS : 100 < sumSetPercents ds <;> simp [hS]
  rw [sumHeights_modifyIdx_add ds2 j _ (by omega)]
  ring

/-- C1 (amended): after a reflow with at least one daughter lacking an
explicit percent, the daughters' stacking-axis extents sum exactly to the
parent's interior extent. -/
theorem seal_conservation (p : Panel) (ds : List PanelTree) (t' : PanelTree)
    (hfree : freeCount ds ≠ 0)
    (hok : sealNode true (.node p ds) = .ok t') :
    sumStack p t'.daughters = interiorStack p := by
  have hne : ds ≠ [] := by
    rintro rfl
    rw [sealNode_nil] at hok
    cases hok
  by_cases hh : p.horizontal
  · rw [sealNode_h_eq p ds hne hh] at hok
    cases hok
    simp [sumStack, interiorStack, hh, PanelTree.daughters, sumWidths_sealH p ds hfree]
  · by_cases hv : p.vertical
    · rw [sealNode_v_eq p ds hne (by simpa using hh) hv] at hok
      cases hok
      simp [sumStack, interiorStack, hh, PanelTree.daughters, sumHeights_sealV p ds hfree]
    · rw [sealNode_noDir true p ds hne (by simpa using hh) (by simpa using hv)] at hok
      cases hok

/-- C1 witness: the theorem applied to a concrete container with one free
daughter. -/
theorem seal_conservation_wit :
    (okView (sealNode true tC1free)).map
        (fun t' => sumStack tC1free.panel t'.daughters) =
      some (interiorStack tC1free.panel) := by
  cases hEq : sealNode true tC1free with
  | error e =>
    have hok : (okView (sealNode true tC1free)).isSome = true := by decide
    rw [hEq] at hok
    simp [okView] at hok
  | ok t' =>
    simp only [okView, Option.map]
    have := seal_conservation _ _ t' (by decide) hEq
    simpa using this

/-- C1 counterexample: when every daughter has an explicit percent (30 and
30 here, interior width 10), the sealed widths sum to 6, not 10 — the
claimed conservation fails for the all-percent mix. -/
theorem seal_conservation_cex :
    (okView (sealNode true tC1all)).map
        (fun t' => sumStack tC1all.panel t'.daughters) ≠
      some (interiorStack tC1all.panel) := by decide

/-- C3: the code at the failing input.  Two daughters with percent 60 each
(sum 120 > 100) are "normalized" by `percent / 120` — integer division —
leaving percents 0 and 0 where the spec's `percent × 100/S` would give 50
and 50. -/
theorem seal_norm_divides_by_sum :
    (okView (sealNode true tC3)).map daughterPercents = some [0, 0] ∧
      (okView (sealNode true tC3)).map daughterPercents ≠ some [50, 50] := by
  constructor <;> decide

/-- C7 counterexample: sealing `tC7` twice changes the third daughter's
width from -10 to 50 — reflow is not idempotent when normalization fired. -/
theorem seal_twice_differs :
    (okView ((sealNode true tC7).bind (sealNode true))).map daughterWidths ≠
      (okView (sealNode true tC7)).map daughterWidths := by decide

/-! ### Idempotence of `sealNode` when no normalization fires -/

theorem assignH_assignH (pw ph S nf : Int) (d : PanelTree) :
    assignH pw ph S nf (assignH pw ph S nf d) = assignH pw ph S nf d := by
  cases d with
  | node q kids => simp [assignH, mapPanel]

theorem assignH_addWidth (pw ph S nf delta : Int) (d : PanelTree) :
    assignH pw ph S nf (addWidth delta d) = assignH pw ph S nf d := by
  cases d with
  | node q kids => simp [assignH, addWidth, mapPanel]

theorem assignV_assignV (pw ph S nf : Int) (d : PanelTree) :
    assignV pw ph S nf (assignV pw ph S nf d) = assignV pw ph S nf d := by
  cases d with
  | node q kids => simp [assignV, mapPanel]

theorem assignV_addHeight (pw ph S nf delta : Int) (d : PanelTree) :
    assignV pw ph S nf (addHeight delta d) = assignV pw ph S nf d := by
  cases d with
  | node q kids => simp [assignV, addHeight, mapPanel]

theorem map_modifyIdx_cancel (f g : PanelTree → PanelTree)
    (hfg : ∀ x, f (g x) = f x) (l : List PanelTree) (j : Nat) :
    (modifyIdx l j g).map f = l.map f := by
  induction l generalizing j with
  | nil => rfl
  | cons d rest ih =>
    cases j with
    | zero => simp [modifyIdx, hfg]
    | succ j => simp [modifyIdx, ih]

theorem absorbW_length (pw : Int) (j : Option Nat) (l : List PanelTree) :
    (absorbW pw j l).length = l.length := by
  cases j <;> simp [absorbW, length_modifyIdx]

theorem absorbH_length (ph : Int) (j : Option Nat) (l : List PanelTree) :
    (absorbH ph j l).length = l.length := by
  cases j <;> simp [absorbH, length_modifyIdx]

theorem sealH_length (p : Panel) (ds : List PanelTree) :
    (sealH p ds).length = ds.length := by
  rw [sealH]
  by_cases hfc : freeCount ds = 0 <;>
    by_cases hS : 100 < sumSetPercents ds <;>
      simp [hfc, hS, absorbW_length]

theorem sealV_length (p : Panel) (ds : List PanelTree) :
    (sealV p ds).length = ds.length := by
  rw [sealV]
  by_cases hfc : freeCount ds = 0 <;>
    by_cases hS : 100 < sumSetPercents ds <;>
      simp [hfc, hS, absorbH_length]

theorem sealH_percents (p : Panel) (ds : List PanelTree)
    (hS : sumSetPercents ds ≤ 100) :
    (sealH p ds).map percentOf = ds.map percentOf := by
  have hS' : ¬ 100 < sumSetPercents ds := not_lt.mpr hS
  rw [sealH]
  simp only [hS', if_false, ite_false]
  by_cases hfc : freeCount ds ≠ 0
  · rw [if_pos hfc]
    cases hlfi : lastFreeIdx ds with
    | none => simp [absorbW, map_percentOf_map _ (percentOf_assignH _ _ _ _)]
    | some j =>
      simp only [absorbW]
      rw [map_percentOf_modifyIdx _ (percentOf_addWidth _)]
      exact map_percentOf_map _ (percentOf_assignH _ _ _ _) ds
  · rw [if_neg hfc]
    exact map_percentOf_map _ (percentOf_assignH _ _ _ _) ds

theorem sealV_percents (p : Panel) (ds : List PanelTree)
    (hS : sumSetPercents ds ≤ 100) :
    (sealV p ds).map percentOf = ds.map percentOf := by
  have hS' : ¬ 100 < sumSetPercents ds := not_lt.mpr hS
  rw [sealV]
  simp only [hS', if_false, ite_false]
  by_cases hfc : freeCount ds ≠ 0
  · rw [if_pos hfc]
    cases hlfi : lastFreeIdx ds with
    | none => simp [absorbH, map_percentOf_map _ (percentOf_assignV _ _ _ _)]
    | some j =>
      simp only [absorbH]
      rw [map_percentOf_modifyIdx _ (percentOf_addHeight _)]
      exact map_percentOf_map _ (percentOf_assignV _ _ _ _) ds
  · rw [if_neg hfc]
    exact map_percentOf_map _ (percentOf_assignV _ _ _ _) ds

theorem sealH_map_assign (p : Panel) (ds : List PanelTree) (pw ph S nf : Int)
    (hS : sumSetPercents ds ≤ 100) :
    (sealH p ds).map (assignH pw ph S nf) = ds.map (assignH pw ph S nf) := by
  have hS' : ¬ 100 < sumSetPercents ds := not_lt.mpr hS
  rw [sealH]
  simp only [hS', if_false, ite_false]
  have hAA : ∀ d, assignH pw ph S nf
      (assignH (p.width - bt p.leftFrame - bt p.rightFrame - p.padding * 4)
        (p.height - bt p.topFrame - bt p.botFrame - p.padding * 2)
        (sumSetPercents ds) (Int.ofNat (freeCount ds)) d) = assignH pw ph S nf d := by
    intro d
    cases d with
    | node q kids => simp [assignH, mapPanel]
  by_cases hfc : freeCount ds ≠ 0
  · rw [if_pos hfc]
    cases hlfi : lastFreeIdx ds with
    | none =>
      simp only [absorbW, List.map_map, Function.comp_def]
      exact List.map_congr_left fun a _ => hAA a
    | some j =>
      simp only [absorbW]
      rw [map_modifyIdx_cancel _ _ (assignH_addWidth pw ph S nf _)]
      simp only [List.map_map, Function.comp_def]
      exact List.map_congr_left fun a _ => hAA a
  · rw [if_neg hfc]
    simp only [List.map_map, Function.comp_def]
    exact List.map_congr_left fun a _ => hAA a

theorem sealV_map_assign (p : Panel) (ds : List PanelTree) (pw ph S nf : Int)
    (hS : sumSetPercents ds ≤ 100) :
    (sealV p ds).map (assignV pw ph S nf) = ds.map (assignV pw ph S nf) := by
  have hS' : ¬ 100 < sumSetPercents ds := not_lt.mpr hS
  rw [sealV]
  simp only [hS', if_false, ite_false]
  have hAA : ∀ d, assignV pw ph S nf
      (assignV (p.width - bt p.leftFrame - bt p.rightFrame - p.padding * 4)
        (p.height - bt p.topFrame - bt p.botFrame - p.padding * 2)
        (sumSetPercents ds) (Int.ofNat (freeCount ds)) d) = assignV pw ph S nf d := by
    intro d
    cases d with
    | node q kids => simp [assignV, mapPanel]
  by_cases hfc : freeCount ds ≠ 0
  · rw [if_pos hfc]
    cases hlfi : lastFreeIdx ds with
    | none =>
      simp only [absorbH, List.map_map, Function.comp_def]
      exact List.map_congr_left fun a _ => hAA a
    | some j =>
      simp only [absorbH]
      rw [map_modifyIdx_cancel _ _ (assignV_addHeight pw ph S nf _)]
      simp only [List.map_map, Function.comp_def]
      exact List.map_congr_left fun a _ => hAA a
  · rw [if_neg hfc]
    simp only [List.map_map, Function.comp_def]
    exact List.map_congr_left fun a _ => hAA a

theorem sealH_idem (p : Panel) (ds : List PanelTree)
    (hS : sumSetPercents ds ≤ 100) :
    sealH p (sealH p ds) = sealH p ds := by
  have hperc := sealH_percents p ds hS
  have hS3 : sumSetPercents (sealH p ds) = sumSetPercents ds := by
    rw [sumSetPercents_factor, sumSetPercents_factor, hperc]
  have hfc3 : freeCount (sealH p ds) = freeCount ds := by
    rw [freeCount_factor, freeCount_factor, hperc]
  have hlfi3 : lastFreeIdx (sealH p ds) = lastFreeIdx ds := by
    rw [lastFreeIdx_factor, lastFreeIdx_factor, hperc]
  conv_lhs => rw [sealH]
  rw [hS3, hfc3, hlfi3]
  have hS' : ¬ 100 < sumSetPercents ds := not_lt.mpr hS
  simp only [hS', if_false, ite_false]
  rw [sealH_map_assign p ds _ _ _ _ hS]
  conv_rhs => rw [sealH]
  simp only [hS', if_false, ite_false]

theorem sealV_idem (p : Panel) (ds : List PanelTree)
    (hS : sumSetPercents ds ≤ 100) :
    sealV p (sealV p ds) = sealV p ds := by
  have hperc := sealV_percents p ds hS
  have hS3 : sumSetPercents (sealV p ds) = sumSetPercents ds := by
    rw [sumSetPercents_factor, sumSetPercents_factor, hperc]
  have hfc3 : freeCount (sealV p ds) = freeCount ds := by
    rw [freeCount_factor, freeCount_factor, hperc]
  have hlfi3 : lastFreeIdx (sealV p ds) = lastFreeIdx ds := by
    rw [lastFreeIdx_factor, lastFreeIdx_factor, hperc]
  conv_lhs => rw [sealV]
  rw [hS3, hfc3, hlfi3]
  have hS' : ¬ 100 < sumSetPercents ds := not_lt.mpr hS
  simp only [hS', if_false, ite_false]
  rw [sealV_map_assign p ds _ _ _ _ hS]
  conv_rhs => rw [sealV]
  simp only [hS', if_false, ite_false]

/-- C7 (amended): reflow is idempotent provided the daughters' set percents
sum to at most 100 (so that the destructive normalization of lines 321-324
does not fire): sealing the sealed tree returns it unchanged — geometries
and percents alike. -/
theorem seal_idem (t t' : PanelTree)
    (hS : sumSetPercents t.daughters ≤ 100)
    (hok : sealNode true t = .ok t') :
    sealNode true t' = .ok t' := by
  cases t with
  | node p ds =>
  have hS0 : sumSetPercents ds ≤ 100 := by simpa [PanelTree.daughters] using hS
  have hne : ds ≠ [] := by
    rintro rfl
    rw [sealNode_nil] at hok
    cases hok
  by_cases hh : p.horizontal
  · rw [sealNode_h_eq p ds hne hh] at hok
    cases hok
    have hne3 : sealH p ds ≠ [] := by
      intro h
      apply hne
      have := sealH_length p ds
      rw [h] at this
      exact List.eq_nil_of_length_eq_zero this.symm
    rw [sealNode_h_eq p _ hne3 hh, sealH_idem p ds hS0]
  · by_cases hv : p.vertical
    · rw [sealNode_v_eq p ds hne (by simpa using hh) hv] at hok
      cases hok
      have hne3 : sealV p ds ≠ [] := by
        intro h
        apply hne
        have := sealV_length p ds
        rw [h] at this
        exact List.eq_nil_of_length_eq_zero this.symm
      rw [sealNode_v_eq p _ hne3 (by simpa using hh) hv, sealV_idem p ds hS0]
    · rw [sealNode_noDir true p ds hne (by simpa using hh) (by simpa using hv)] at hok
      cases hok

/-- C7 witness: the idempotence theorem applied to a concrete container
with percents 50 and unset. -/
theorem seal_idem_wit :
    (okView (sealNode true tC7ok)).map (fun t' => sealNode true t' = .ok t')
      |>.getD False := by
  cases hEq : sealNode true tC7ok with
  | error e =>
    have hok : (okView (sealNode true tC7ok)).isSome = true := by decide
    rw [hEq] at hok
    simp [okView] at hok
  | ok t' =>
    simp only [okView, Option.map, Option.getD]
    exact seal_idem tC7ok t' (by decide) hEq

/-! ### Error propagation through the tree (for C9 and C10) -/

theorem modifyAtP_error (f : PanelTree → Except PErr PanelTree) :
    ∀ (path : List Nat) (t sub : PanelTree), nodeAt path t = some sub →
      ∀ e, f sub = .error e → modifyAtP f path t = .error e := by
  intro path
  induction path with
  | nil =>
    intro t sub h e hf
    simp only [nodeAt, Option.some.injEq] at h
    subst h
    simpa [modifyAtP] using hf
  | cons i rest ih =>
    intro t sub h e hf
    cases t with
    | node p ds =>
      simp only [nodeAt] at h
      cases hget : ds.get? i with
      | none => rw [hget] at h; cases h
      | some d =>
        rw [hget] at h
        simp only [modifyAtP, hget]
        rw [ih d sub h e hf]

/-- C9: `subdivide` fails with `PanelError` ("InvalidOperation") when the
panel already holds content, and when `names` is given with a length other
than the subdivision count; both checks run before any daughters are
created, so a failing subdivide leaves the tree untouched (the model
returns only the error). -/
theorem subdivide_error_checks (t : PanelTree) (path : List Nat)
    (sub : PanelTree) (c : Int) (names : List String) (horiz : Bool)
    (w hgt : Int) (hnode : nodeAt path t = some sub) :
    (sub.panel.content ≠ "" →
      subdivideAt t path c names horiz w hgt =
        .error (.panelError "Panels with content cannot be subdivided.")) ∧
    (sub.panel.content = "" → names ≠ [] → (names.length : Int) ≠ c →
      subdivideAt t path c names horiz w hgt =
        .error (.panelError "The number of names should be equal to the number of subdivisions")) := by
  constructor
  · intro hcont
    have hf : subdivideNode c names horiz w hgt sub =
        .error (.panelError "Panels with content cannot be subdivided.") := by
      cases sub with
      | node q kids =>
        simp only [PanelTree.panel] at hcont
        simp [subdivideNode, hcont]
    rw [subdivideAt, modifyAtP_error _ path t sub hnode _ hf]
  · intro hcont hnames hlen
    have hf : subdivideNode c names horiz w hgt sub =
        .error (.panelError "The number of names should be equal to the number of subdivisions") := by
      cases sub with
      | node q kids =>
        simp only [PanelTree.panel] at hcont
        simp [subdivideNode, hcont, hnames, hlen]
    rw [subdivideAt, modifyAtP_error _ path t sub hnode _ hf]

/-- C9 witness: a content-bearing leaf, and a mismatched name list on an
empty panel. -/
theorem subdivide_error_checks_wit :
    subdivideAt tC9content [] 2 [] true (-1) (-1) =
        .error (.panelError "Panels with content cannot be subdivided.") ∧
      subdivideAt tC9empty [] 3 ["a", "b"] true (-1) (-1) =
        .error (.panelError "The number of names should be equal to the number of subdivisions") := by
  constructor
  · exact (subdivide_error_checks tC9content [] tC9content 2 [] true (-1) (-1)
      rfl).1 (by decide)
  · exact (subdivide_error_checks tC9empty [] tC9empty 3 ["a", "b"] true (-1) (-1)
      rfl).2 rfl (by decide) (by decide)

/-- C10: setting a percent on the root panel — directly via `set_percent`
or via `panel[name] = n` resolving to the root — does not raise a
`PanelError`/`ValueError` of the error taxonomy but crashes with an
unhandled `AttributeError`, because `set_percent` unconditionally calls
`self.parent.seal()` and the root's parent is `None`; the operation
therefore presumes a parent. -/
theorem setPercent_root_crashes :
    (∀ (t : PanelTree) (v : Int), setPercentAt t [] v =
        .error (.pyCrash "AttributeError: NoneType object has no attribute seal")) ∧
    (∀ (t : PanelTree) (v : Int), setItem t t.panel.name (.pint v) =
        .error (.pyCrash "AttributeError: NoneType object has no attribute seal")) := by
  constructor
  · intro t v
    rfl
  · intro t v
    cases t with
    | node p ds =>
      simp [setItem, findPath, PanelTree.panel, setPercentAt]

/-! ### Locality of `set_percent` (C6) -/

theorem pathStarts_nil (q : List Nat) : pathStarts [] q = true := rfl

theorem pathStarts_dropLast_of (a q : List Nat)
    (h : pathStarts a q = true) : pathStarts a.dropLast q = true := by
  induction a generalizing q with
  | nil => simpa using h
  | cons i a2 ih =>
    cases q with
    | nil => simp [pathStarts] at h
    | cons j b =>
      cases a2 with
      | nil => simp [pathStarts]
      | cons i2 a3 =>
        simp only [pathStarts, Bool.and_eq_true, beq_iff_eq] at h
        simp only [List.dropLast, pathStarts, Bool.and_eq_true, beq_iff_eq]
        exact ⟨h.1, by simpa using ih b h.2⟩

/-- Panels outside the subtree a `modifyAtP` targets are untouched. -/
theorem modifyAtP_outside (f : PanelTree → Except PErr PanelTree) :
    ∀ (r : List Nat) (t t' : PanelTree), modifyAtP f r t = .ok t' →
      ∀ q, pathStarts r q = false → panelAt t' q = panelAt t q := by
  intro r
  induction r with
  | nil =>
    intro t t' _ q hq
    rw [pathStarts_nil] at hq
    cases hq
  | cons i rest ih =>
    intro t t' hok q hq
    cases t with
    | node p ds =>
      cases hget : ds.get? i with
      | none =>
        simp only [modifyAtP, hget] at hok
        cases hok
      | some d =>
        simp only [modifyAtP, hget] at hok
        cases hrec : modifyAtP f rest d with
        | error e =>
          simp only [hrec] at hok
          cases hok
        | ok d1 =>
          simp only [hrec] at hok
          cases hok
          cases q with
          | nil => rfl
          | cons j q2 =>
            by_cases hij : i = j
            · subst hij
              have hq2 : pathStarts rest q2 = false := by
                simpa [pathStarts] using hq
              have hi : i < ds.length := by
                rcases List.get?_eq_some.mp hget with ⟨hlt, _⟩
                exact hlt
              simp only [panelAt, nodeAt, List.get?_set_eq_of_lt d1 hi, hget]
              exact ih d d1 hrec q2 hq2
            · simp only [panelAt, nodeAt, List.get?_set_ne d1 ds (fun h => hij h)]

/-- C6 counterexample: in the concrete tree `tC6`, setting `A1`'s percent
(path `[0,0]`) leaves `A`'s width at its stale value 7, while the claimed
root-rooted recomputation (the same percent write followed by a seal at the
root) assigns `A` width 5 — so the reflow is not rooted at the root. -/
theorem setPercent_not_root_reflow :
    ((okView (setPercentAt tC6 [0, 0] 50)).bind
        (fun u => panelAt u [0])).map Panel.width = some 7 ∧
      ((okView ((modifyAtP (fun u => .ok (setPercentPanel 50 u)) [0, 0] tC6).bind
          (modifyAtP (sealNode true) []))).bind
        (fun u => panelAt u [0])).map Panel.width = some 5 ∧
      (7 : Int) ≠ 5 := by
  refine ⟨by decide, by decide, by decide⟩

/-- C6 (amended): `set_percent` reflows only the immediate daughters of
the changed panel's parent: every panel whose path does not lie in the
parent's subtree keeps its geometry unchanged (the change is local, not a
root-rooted full-tree reflow; `subdivide` and `toggle_direction` do invoke
seal on the root, but seal itself recomputes only the root's immediate
daughters). -/
theorem setPercent_reflow_local (t t' : PanelTree) (path : List Nat) (v : Int)
    (hok : setPercentAt t path v = .ok t') :
    ∀ q : List Nat, pathStarts path.dropLast q = false →
      panelAt t' q = panelAt t q := by
  cases path with
  | nil => cases hok
  | cons i rest =>
    simp only [setPercentAt] at hok
    cases h1 : modifyAtP (fun u => .ok (setPercentPanel v u)) (i :: rest) t with
    | error e => rw [h1] at hok; cases hok
    | ok t1 =>
      rw [h1] at hok
      intro q hq
      have hq' : pathStarts (i :: rest) q = false := by
        cases hfull : pathStarts (i :: rest) q
        · rfl
        · rw [pathStarts_dropLast_of _ _ hfull] at hq
          cases hq
      rw [modifyAtP_outside _ _ _ _ hok q hq]
      exact modifyAtP_outside _ _ _ _ h1 q hq'

/-- C6 witness: the locality theorem applied to `tC6`, showing leaf `B`
(path `[1]`, outside parent `A`'s subtree) is untouched. -/
theorem setPercent_reflow_local_wit :
    ((okView (setPercentAt tC6 [0, 0] 50)).map
      (fun u => panelAt u [1] = panelAt tC6 [1])).getD False := by
  cases hEq : setPercentAt tC6 [0, 0] 50 with
  | error e =>
    have hok : (okView (setPercentAt tC6 [0, 0] 50)).isSome = true := by decide
    rw [hEq] at hok
    simp [okView] at hok
  | ok t' =>
    simp only [okView, Option.map, Option.getD]
    exact setPercent_reflow_local tC6 t' [0, 0] 50 hEq [1] (by decide)

/-! ### Frame claims: degenerate widths (C4), empty text (C8), fixed
height (C2) -/

/-- C4 counterexample: with both side borders on, `frame("x", width=0)` has
interior width `0 - 2 = -2 < -1`, so every line is blanked — the output is
the empty string, not lines of `"||"` as the claim's table says. -/
theorem frame_degeneracy_cex :
    frame ['x'] 0 (-1) 0 false false true true ≠ ['|', '|'] := by decide

/-- C4 (amended): the degeneracy table is keyed on the interior width
`width - frameChars`, not on `width`: with both side borders on (and
top/bottom off), `width = 2` (interior 0) gives lines of exactly `"||"`,
`width = 1` (interior -1) gives `"|"`, and `width = 0` (interior -2, i.e.
below -1) gives empty lines.  (`width < 0` would not reach these branches
at all: it triggers auto-width.) -/
theorem frame_degeneracy_table :
    frame ['x'] 2 (-1) 0 false false true true = ['|', '|'] ∧
      frame ['x'] 1 (-1) 0 false false true true = ['|'] ∧
      frame ['x'] 0 (-1) 0 false false true true = [] := by
  refine ⟨by decide, by decide, by decide⟩

theorem emptyReplace_length (width fNum padding : Int) :
    (emptyReplace width fNum padding).length =
      (width - fNum - padding * 4).toNat + 1 := by
  simp [emptyReplace]

/-- C8 counterexample: for `frame("", width=6)` with both side borders and
no padding the interior width is 4, but the replacement blank line is
`" " + " "*4` — five characters, not four. -/
theorem frame_empty_replacement_cex :
    (emptyReplace 6 2 0).length ≠ ((6 : Int) - 2 - 0 * 4).toNat := by decide

/-- C8 (amended): empty text is replaced by a single blank line of length
the interior width **plus one** (the source writes one space and then
interior-width further spaces), so a frame is never drawn around nothing;
`frame` on empty text behaves exactly as on that replacement line. -/
theorem frame_empty_replacement (width height padding : Int) (tF bF lF rF : Bool)
    (hpad : 0 ≤ padding)
    (_hint : 0 ≤ width - (bt lF + bt rF) - padding * 4) :
    frameL [] width height padding tF bF lF rF =
        frameL (emptyReplace width (bt lF + bt rF) padding)
          width height padding tF bF lF rF ∧
      (emptyReplace width (bt lF + bt rF) padding).length =
        (width - (bt lF + bt rF) - padding * 4).toNat + 1 := by
  constructor
  · have hlen : ¬ (emptyReplace width (bt lF + bt rF) padding).length < 1 := by
      rw [emptyReplace_length]; omega
    have hp' : ¬ padding < 0 := not_lt.mpr hpad
    simp [frameL, hp', hlen]
  · exact emptyReplace_length width (bt lF + bt rF) padding

/-- C8 witness: the amended statement at `width = 6`, all borders, no
padding (replacement length 5 = interior 4 plus one). -/
theorem frame_empty_replacement_wit :
    frameL [] 6 (-1) 0 true true true true =
        frameL (emptyReplace 6 (bt true + bt true) 0) 6 (-1) 0 true true true true ∧
      (emptyReplace 6 (bt true + bt true) 0).length =
        ((6 : Int) - (bt true + bt true) - 0 * 4).toNat + 1 :=
  frame_empty_replacement 6 (-1) 0 true true true true (by decide) (by decide)

/-- C2 counterexample: `frame("x", width=6, height=1)` with all borders
returns the two lines `""` and `"+----+"` — not the `1 + 1 + 1 = 3` lines
of width 6 the claim predicts (the source's `height` counts the whole
block, and small heights degenerate). -/
theorem frame_height_count_cex :
    (frameL ['x'] 6 1 0 true true true true).length ≠ 3 := by decide

/-! ### The fixed-height block spec (C2, amended) -/

theorem textLines_ne_nil (s : List Char) : textLines s ≠ [] := by
  induction s with
  | nil => simp [textLines]
  | cons c r ih =>
    rw [textLines]
    by_cases hc : c = '\n'
    · simp [hc]
    · simp only [hc, if_false, ite_false]
      cases htl : textLines r with
      | nil => simp
      | cons l ls => simp

theorem bt_nonneg (b : Bool) : 0 ≤ bt b := by cases b <;> simp [bt]

theorem blankLine_length (width : Int) (hw : 2 ≤ width) :
    (blankLine width 2 true true).length = width.toNat := by
  simp [blankLine]
  omega

theorem padLineHB_length (width : Int) (hw : 2 ≤ width) :
    (padLineHB width 2).length = width.toNat := by
  simp [padLineHB]
  omega

theorem insertSpaces_length_ge (width W2 : Int) (l : List Char) (hW2 : 0 ≤ W2) :
    width.toNat ≤ (insertSpaces width W2 l).length := by
  rw [insertSpaces, if_pos hW2]
  simp only [List.length_append, List.length_take, List.length_replicate,
    List.length_drop]
  omega

theorem sidePipes_length (n : Nat) (l : List Char) (h : n ≤ l.length) :
    (sidePipes n true true l).length = n + 2 := by
  simp [sidePipes, h]

theorem sideFrameLines_spec (width padding : Int) (ls : List (List Char))
    (hpad : 0 ≤ padding) (hw : 0 ≤ width - 2 - 4 * padding) :
    (sideFrameLines width padding 2 true true ls).length = ls.length ∧
      ∀ l ∈ sideFrameLines width padding 2 true true ls,
        l.length = width.toNat := by
  have hW2 : 0 ≤ width - 2 * padding - 2 := by omega
  rw [sideFrameLines]
  by_cases hpos : width - 2 > 0
  · rw [if_pos hpos]
    refine ⟨by simp, ?_⟩
    intro l hl
    rcases List.mem_map.mp hl with ⟨l1, hl1, rfl⟩
    rcases List.mem_map.mp hl1 with ⟨l0, hl0, rfl⟩
    have hge : (width - 2).toNat ≤
        (insertSpaces width (width - 2 * padding - 2) l0).length := by
      have h1 := insertSpaces_length_ge width (width - 2 * padding - 2) l0 hW2
      omega
    rw [sidePipes_length _ _ hge]
    omega
  · have h0 : width - 2 = 0 := by omega
    rw [if_neg hpos, if_pos h0]
    refine ⟨by simp, ?_⟩
    intro l hl
    rcases List.mem_map.mp hl with ⟨l1, _, rfl⟩
    simp
    omega

theorem borderLines_spec (width : Int) (hw : 2 ≤ width) :
    (borderLines width 2 true true).length = 1 ∧
      ∀ l ∈ borderLines width 2 true true, l.length = width.toNat := by
  rw [borderLines]
  by_cases hpos : width - 2 > 0
  · rw [if_pos hpos]
    refine ⟨rfl, ?_⟩
    intro l hl
    simp only [List.mem_singleton] at hl
    subst hl
    simp
    omega
  · have h0 : width - 2 = 0 := by omega
    rw [if_neg hpos, if_pos h0]
    refine ⟨rfl, ?_⟩
    intro l hl
    simp only [List.mem_singleton] at hl
    subst hl
    simp
    omega

/-- The fixed-height block rewritten as "keep the first
`height - padding - botFrame` lines, then re-append the padding lines". -/
theorem heightAdjust_eq_take (width height padding : Int) (tF bF : Bool)
    (ls : List (List Char))
    (hlen : (bt tF).toNat + 1 ≤ ls.length)
    (hpad : 0 ≤ padding)
    (hh : 1 + padding + bt bF ≤ height) :
    heightAdjust width 2 height padding tF bF true true ls =
      (ls ++ List.replicate height.toNat (blankLine width 2 true true)).take
          (height.toNat - padding.toNat - (bt bF).toNat) ++
        List.replicate padding.toNat (padLineHB width 2) := by
  have hbtF := bt_nonneg tF
  have hbtB := bt_nonneg bF
  have hhp : (0 : Int) < height := by omega
  have hm : (height + bt tF).toNat = height.toNat + (bt tF).toNat := by omega
  have hK : (1 + padding + bt bF + bt tF).toNat =
      1 + padding.toNat + (bt bF).toNat + (bt tF).toNat := by omega
  have hN1 : 1 ≤ height.toNat - padding.toNat - (bt bF).toNat := by omega
  rw [heightAdjust]
  set lsA := ls ++ List.replicate height.toNat (blankLine width 2 true true) with hlsA
  have hlenA : lsA.length = ls.length + height.toNat := by simp [hlsA]
  have hNle : height.toNat - padding.toNat - (bt bF).toNat ≤
      (height + bt tF).toNat := by omega
  have hNlt : height.toNat - padding.toNat - (bt bF).toNat < lsA.length := by omega
  have hkept : ∀ P : List (List Char), P.length = (height + bt tF).toNat + 1 →
      P.take (P.length - (1 + padding + bt bF + bt tF).toNat) =
        P.take (height.toNat - padding.toNat - (bt bF).toNat) := by
    intro P hP
    rw [hP]
    congr 1
    omega
  by_cases hsplit : lsA.length ≤ (height + bt tF).toNat + 1
  · have heq : lsA.length = (height + bt tF).toNat + 1 := by omega
    rw [if_pos hsplit, hkept lsA heq]
    have hne : lsA.take (height.toNat - padding.toNat - (bt bF).toNat) ≠ [] := by
      apply List.length_pos.mp
      rw [List.length_take]
      omega
    rw [if_neg hne]
  · rw [if_neg hsplit]
    have hmlt : (height + bt tF).toNat < lsA.length := by omega
    have hPlen : (lsA.take (height + bt tF).toNat ++ [joinNL
        (lsA.drop (height + bt tF).toNat)]).length =
        (height + bt tF).toNat + 1 := by
      simp
      omega
    rw [hkept _ hPlen]
    rw [List.take_append_of_le_length (by simp; omega)]
    rw [List.take_take]
    rw [min_eq_left hNle]
    have hne : lsA.take (height.toNat - padding.toNat - (bt bF).toNat) ≠ [] := by
      apply List.length_pos.mp
      rw [List.length_take]
      omega
    rw [if_neg hne]

theorem heightAdjust_spec (width height padding : Int) (tF bF : Bool)
    (ls : List (List Char))
    (hlen : (bt tF).toNat + 1 ≤ ls.length)
    (hall : ∀ l ∈ ls, l.length = width.toNat)
    (hw : 2 ≤ width) (hpad : 0 ≤ padding)
    (hh : 1 + padding + bt bF ≤ height) :
    (heightAdjust width 2 height padding tF bF true true ls).length =
        height.toNat - (bt bF).toNat ∧
      ∀ l ∈ heightAdjust width 2 height padding tF bF true true ls,
        l.length = width.toNat := by
  have hbtF := bt_nonneg tF
  have hbtB := bt_nonneg bF
  rw [heightAdjust_eq_take width height padding tF bF ls hlen hpad hh]
  constructor
  · simp only [List.length_append, List.length_take, List.length_replicate]
    omega
  · intro l hl
    rcases List.mem_append.mp hl with h | h
    · have hmem : l ∈ ls ++ List.replicate height.toNat (blankLine width 2 true true) :=
        List.mem_of_mem_take h
      rcases List.mem_append.mp hmem with h2 | h2
      · exact hall l h2
      · rw [List.eq_of_mem_replicate h2]
        exact blankLine_length width hw
    · rw [List.eq_of_mem_replicate h]
      exact padLineHB_length width hw

/-- C2 (amended): for a frame with both side borders, nonnegative padding,
a width that leaves a nonnegative wrap budget, and
`height ≥ 1 + padding + botFrame`, the rendered block consists of exactly
`height` lines — `height` counts the **whole** block, borders included, not
`height + topBorder + botBorder` — and every line has length exactly
`width`. -/
theorem frame_fixed_height (text : List Char) (width height padding : Int)
    (tF bF : Bool) (hpad : 0 ≤ padding) (hw : 0 ≤ width - 2 - 4 * padding)
    (hh : 1 + padding + bt bF ≤ height) :
    (frameL text width height padding tF bF true true).length = height.toNat ∧
      ∀ l ∈ frameL text width height padding tF bF true true,
        l.length = width.toNat := by
  have hbtF := bt_nonneg tF
  have hbtB := bt_nonneg bF
  have hp' : ¬ padding < 0 := by omega
  have hwneg : ¬ width < 0 := by omega
  have hwge : 2 ≤ width := by omega
  have hhpos : height > -1 := by omega
  rw [frameL]
  simp only [hp', if_false, ite_false, hwneg, hhpos, if_true, ite_true,
    Bool.or_true, Bool.true_or, Bool.or_self, eq_self_iff_true]
  have hfNum : bt true + bt true = 2 := by simp [bt]
  rw [hfNum]
  set ls1 := (textLines (constrain (if text.length < 1
      then emptyReplace width 2 padding else text) (width - 4 * padding - 2))).map
      (leftPadLine padding) with hls1
  set ls2 := List.replicate padding.toNat ([] : List Char) ++ ls1 ++
      List.replicate padding.toNat ([] : List Char) with hls2
  have hls2len : 1 ≤ ls2.length := by
    have h1 : ls1 ≠ [] := by
      rw [hls1]
      simp only [ne_eq, List.map_eq_nil_iff]
      exact textLines_ne_nil _
    have h2 : 0 < ls1.length := List.length_pos_of_ne_nil h1
    simp [hls2]
    omega
  rcases sideFrameLines_spec width padding ls2 hpad hw with ⟨hsfLen, hsfAll⟩
  set ls3 := sideFrameLines width padding 2 true true ls2 with hls3
  rcases borderLines_spec width hwge with ⟨hbLen, hbAll⟩
  set ls4 := if tF then borderLines width 2 true true ++ ls3 else ls3 with hls4
  have hls4len : (bt tF).toNat + 1 ≤ ls4.length := by
    rw [hls4]
    cases tF <;> simp [bt, hbLen, hsfLen] <;> omega
  have hls4all : ∀ l ∈ ls4, l.length = width.toNat := by
    intro l hl
    rw [hls4] at hl
    cases tF with
    | false => exact hsfAll l (by simpa using hl)
    | true =>
      simp only [if_true, ite_true, List.mem_append] at hl
      rcases hl with h | h
      · exact hbAll l h
      · exact hsfAll l h
  rcases heightAdjust_spec width height padding tF bF ls4 hls4len hls4all hwge hpad hh
    with ⟨hhaLen, hhaAll⟩
  constructor
  · by_cases hbF : bF = true
    · rw [if_pos hbF]
      rw [List.length_append, hhaLen, hbLen, hbF]
      simp only [bt, if_true, ite_true, Int.toNat_one]
      omega
    · have hbF0 : bF = false := by revert hbF; cases bF <;> simp
      rw [if_neg hbF, hhaLen, hbF0]
      simp [bt]
  · intro l hl
    by_cases hbF : bF = true
    · rw [if_pos hbF] at hl
      rcases List.mem_append.mp hl with h | h
      · exact hhaAll l h
      · exact hbAll l h
    · rw [if_neg hbF] at hl
      exact hhaAll l hl

/-- C2 witness: the amended statement at `frame("x", width=6, height=5)`
with all borders: 5 lines of width 6. -/
theorem frame_fixed_height_wit :
    (frameL ['x'] 6 5 0 true true true true).length = (5 : Int).toNat ∧
      ∀ l ∈ frameL ['x'] 6 5 0 true true true true, l.length = (6 : Int).toNat :=
  frame_fixed_height ['x'] 6 5 0 true true (by decide) (by decide) (by decide)

/-! ### Text-line structure lemmas (for C5) -/

theorem joinNL_textLines (s : List Char) : joinNL (textLines s) = s := by
  induction s with
  | nil => rfl
  | cons c r ih =>
    rw [textLines]
    by_cases hc : c = '\n'
    · subst hc
      rw [if_pos rfl]
      cases htl : textLines r with
      | nil => exact absurd htl (textLines_ne_nil r)
      | cons l ls =>
        rw [htl] at ih
        simp only [joinNL, List.nil_append]
        rw [← ih]
    · rw [if_neg hc]
      cases htl : textLines r with
      | nil => exact absurd htl (textLines_ne_nil r)
      | cons l ls =>
        rw [htl] at ih
        cases ls with
        | nil => simp only [joinNL] at ih ⊢; rw [ih]
        | cons l2 ls2 =>
          simp only [joinNL, List.cons_append] at ih ⊢
          rw [ih]

theorem textLines_append_cons (a y : List Char) (h : '\n' ∉ a) :
    textLines (a ++ '\n' :: y) = a :: textLines y := by
  induction a with
  | nil => simp [textLines]
  | cons c a2 ih =>
    have hc : c ≠ '\n' := fun hc => h (by simp [hc])
    have h2 : '\n' ∉ a2 := fun h2 => h (by simp [h2])
    rw [List.cons_append, textLines, if_neg hc, ih h2]

theorem textLines_concat_nl (x : List Char) :
    textLines (x ++ ['\n']) = textLines x ++ [[]] := by
  induction x with
  | nil => rfl
  | cons c r ih =>
    rw [List.cons_append, textLines, textLines]
    by_cases hc : c = '\n'
    · rw [if_pos hc, if_pos hc, ih]
      rfl
    · rw [if_neg hc, if_neg hc, ih]
      cases htl : textLines r with
      | nil => exact absurd htl (textLines_ne_nil r)
      | cons l ls => simp

theorem mem_of_mem_textLines (s : List Char) :
    ∀ l ∈ textLines s, ∀ c ∈ l, c ∈ s := by
  induction s with
  | nil =>
    intro l hl c hc
    simp [textLines] at hl
    subst hl
    cases hc
  | cons c0 r ih =>
    intro l hl c hc
    rw [textLines] at hl
    by_cases hc0 : c0 = '\n'
    · rw [if_pos hc0] at hl
      rcases List.mem_cons.mp hl with rfl | h
      · cases hc
      · exact List.mem_cons_of_mem _ (ih l h c hc)
    · rw [if_neg hc0] at hl
      cases htl : textLines r with
      | nil => exact absurd htl (textLines_ne_nil r)
      | cons l0 ls =>
        rw [htl] at hl
        rcases List.mem_cons.mp hl with rfl | h
        · rcases List.mem_cons.mp hc with rfl | h2
          · exact List.mem_cons_self _ _
          · exact List.mem_cons_of_mem _ (ih l0 (by simp [htl]) c h2)
        · exact List.mem_cons_of_mem _ (ih l (by simp [htl, h]) c hc)

theorem textLines_map (σ : Char → Char) (hσ : ∀ c, σ c = '\n' ↔ c = '\n')
    (s : List Char) :
    textLines (s.map σ) = (textLines s).map (List.map σ) := by
  induction s with
  | nil => rfl
  | cons c r ih =>
    rw [List.map_cons, textLines, textLines]
    by_cases hc : c = '\n'
    · rw [if_pos ((hσ c).mpr hc), if_pos hc, ih]
      rfl
    · rw [if_neg (fun h => hc ((hσ c).mp h)), if_neg hc, ih]
      cases htl : textLines r with
      | nil => exact absurd htl (textLines_ne_nil r)
      | cons l ls => simp

theorem unprotectChar_nl (c : Char) : unprotectChar c = '\n' ↔ c = '\n' := by
  rw [unprotectChar]
  by_cases hc : c = tickChar
  · rw [if_pos hc]
    subst hc
    constructor
    · intro h; cases h
    · intro h; cases h
  · rw [if_neg hc]

theorem stripTrailingNl_linesLE (W : Nat) (t : List Char)
    (h : ∀ l ∈ textLines t, l.length ≤ W) :
    ∀ l ∈ textLines (stripTrailingNl t), l.length ≤ W := by
  rw [stripTrailingNl]
  by_cases hlast : t.getLast? = some '\n'
  · rw [if_pos hlast]
    have hne : t ≠ [] := by
      intro h0
      rw [h0] at hlast
      cases hlast
    have hget : t.getLast hne = '\n' := by
      have := List.getLast?_eq_getLast t hne
      rw [hlast] at this
      exact (Option.some.inj this).symm
    have ht : t.dropLast ++ ['\n'] = t := by
      rw [← hget]
      exact List.dropLast_append_getLast hne
    intro l hl
    apply h
    rw [← ht, textLines_concat_nl]
    exact List.mem_append_left _ hl
  · rw [if_neg hlast]
    exact h

theorem protectLine_id (l : List Char) (h : '|' ∉ l) : protectLine l = l := by
  rw [protectLine, if_neg]
  rw [List.count_eq_zero_of_not_mem h]
  omega

theorem protectPipes_id (s : List Char) (h : '|' ∉ s) : protectPipes s = s := by
  rw [protectPipes]
  have hmap : (textLines s).map protectLine = textLines s := by
    have h1 : (textLines s).map protectLine = (textLines s).map id :=
      List.map_congr_left (fun l hl =>
        protectLine_id l (fun hc => h (mem_of_mem_textLines s l hl '|' hc)))
    rw [h1, List.map_id]
  rw [hmap, joinNL_textLines]

theorem map_unprotect_id (t : List Char) (h : ∀ c ∈ t, c ≠ tickChar) :
    t.map unprotectChar = t := by
  have h1 : t.map unprotectChar = t.map id :=
    List.map_congr_left (fun c hc => by rw [unprotectChar, if_neg (h c hc)]; rfl)
  rw [h1, List.map_id]

/-! ### Match lemmas for the wrap scan (C5) -/

theorem space_not_word (c : Char) (h : isPySpace c = true) :
    isPyWord c = false := by
  simp only [isPySpace, Bool.or_eq_true, decide_eq_true_eq] at h
  rcases h with ((((h1 | h1) | h1) | h1) | h1) | h1 <;> subst h1 <;> decide

theorem word_not_space (c : Char) (h : isPyWord c = true) :
    isPySpace c = false := by
  cases hsp : isPySpace c with
  | false => rfl
  | true => rw [space_not_word c hsp] at h; cases h

theorem hyphenAt_eq_none (t : List Char) (h : '-' ∉ t) : hyphenAt t = none := by
  unfold hyphenAt
  split <;> first
    | rfl
    | (exfalso; apply h; simp)

theorem breakAt_shape (t g2 : List Char) (hh : '-' ∉ t)
    (h : breakAt t = some g2) : ∃ c, g2 = [c] ∧ isPySpace c = true := by
  cases t with
  | nil => cases h
  | cons c r =>
    simp only [breakAt] at h
    by_cases hsp : isPySpace c = true
    · rw [if_pos hsp] at h
      exact ⟨c, (Option.some.inj h).symm, hsp⟩
    · rw [if_neg hsp, hyphenAt_eq_none _ hh] at h
      cases h

theorem runLen_le_nonNlLen (s : List Char) : runLen s ≤ nonNlLen s := by
  induction s with
  | nil => simp [runLen, nonNlLen]
  | cons c r ih =>
    rw [runLen, nonNlLen]
    by_cases hsp : isPySpace c = true
    · rw [if_pos hsp]
      omega
    · have hc : ¬ c = '\n' := fun hcc => hsp (by rw [hcc]; rfl)
      rw [if_neg hsp, if_neg hc]
      omega

theorem drop_runLen_break (s : List Char) :
    s.drop (runLen s) = [] ∨
      ∃ c r, s.drop (runLen s) = c :: r ∧ isPySpace c = true := by
  induction s with
  | nil => left; rfl
  | cons c r ih =>
    rw [runLen]
    by_cases hsp : isPySpace c = true
    · right
      exact ⟨c, r, by rw [if_pos hsp]; rfl, hsp⟩
    · rw [if_neg hsp]
      simpa [List.drop_succ_cons] using ih

theorem runsOK_head_le (W : Nat) (s : List Char) (h : runsOK W s = true) :
    runLen s ≤ W := by
  cases s with
  | nil => simp [runLen]
  | cons c r =>
    rw [runsOK, Bool.and_eq_true, decide_eq_true_eq] at h
    exact h.1

theorem runsOK_tail (W : Nat) (c : Char) (r : List Char)
    (h : runsOK W (c :: r) = true) : runsOK W r = true := by
  rw [runsOK, Bool.and_eq_true] at h
  exact h.2

theorem runsOK_drop (W : Nat) (n : Nat) :
    ∀ s : List Char, runsOK W s = true → runsOK W (s.drop n) = true := by
  induction n with
  | zero => intro s h; simpa using h
  | succ n ih =>
    intro s h
    cases s with
    | nil => simpa using h
    | cons c r =>
      rw [List.drop_succ_cons]
      exact ih r (runsOK_tail W c r h)

theorem tryMatchK_exists (s : List Char) :
    ∀ K : Nat, (∃ k, k ≤ K ∧ ((breakAt (s.drop k)).isSome ∨ s.drop k = [])) →
      ∃ k g2, tryMatchK s K = some (k, g2) := by
  intro K
  induction K with
  | zero =>
    rintro ⟨k, hk, hbreak⟩
    have hk0 : k = 0 := by omega
    subst hk0
    cases hb : breakAt s with
    | some g2 => exact ⟨0, g2, by simp [tryMatchK, hb]⟩
    | none =>
      have hnil : s = [] := by
        rcases hbreak with h2 | h2
        · rw [List.drop_zero] at h2
          rw [hb] at h2
          cases h2
        · simpa using h2
      exact ⟨0, [], by simp [tryMatchK, hb, hnil, breakAt]⟩
  | succ K ih =>
    rintro ⟨k, hk, hbreak⟩
    cases hb : breakAt (s.drop (K + 1)) with
    | some g2 => exact ⟨K + 1, g2, by simp [tryMatchK, hb]⟩
    | none =>
      by_cases hdrop : s.drop (K + 1) = []
      · exact ⟨K + 1, [], by simp [tryMatchK, hb, hdrop, breakAt]⟩
      · have hk' : k ≤ K := by
          rcases Nat.lt_or_ge k (K + 1) with h2 | h2
          · omega
          · exfalso
            have hkk : k = K + 1 := by omega
            subst hkk
            rcases hbreak with h3 | h3
            · rw [hb] at h3
              cases h3
            · exact hdrop h3
        obtain ⟨k0, g0, hres⟩ := ih ⟨k, hk', hbreak⟩
        exact ⟨k0, g0, by simp [tryMatchK, hb, hdrop, hres]⟩

theorem tryMatchK_shape (s : List Char) (hh : '-' ∉ s) :
    ∀ K k g2, tryMatchK s K = some (k, g2) →
      k ≤ K ∧ ((g2 = [] ∧ s.drop k = []) ∨ ∃ c, g2 = [c] ∧ isPySpace c = true) := by
  intro K
  induction K with
  | zero =>
    intro k g2 h
    simp only [tryMatchK] at h
    cases hb : breakAt s with
    | some g0 =>
      rw [hb] at h
      obtain ⟨rfl, rfl⟩ : 0 = k ∧ g0 = g2 := by
        have := Option.some.inj h
        exact ⟨congrArg Prod.fst this, congrArg Prod.snd this⟩
      refine ⟨le_refl 0, Or.inr ?_⟩
      have hh0 : '-' ∉ s.drop 0 := by simpa using hh
      exact breakAt_shape _ g0 hh0 (by simpa using hb)
    | none =>
      rw [hb] at h
      by_cases hnil : s = []
      · rw [if_pos hnil] at h
        obtain ⟨rfl, rfl⟩ : 0 = k ∧ ([] : List Char) = g2 := by
          have := Option.some.inj h
          exact ⟨congrArg Prod.fst this, congrArg Prod.snd this⟩
        exact ⟨le_refl 0, Or.inl ⟨rfl, by simpa using hnil⟩⟩
      · rw [if_neg hnil] at h
        cases h
  | succ K ih =>
    intro k g2 h
    simp only [tryMatchK] at h
    cases hb : breakAt (s.drop (K + 1)) with
    | some g0 =>
      rw [hb] at h
      obtain ⟨rfl, rfl⟩ : K + 1 = k ∧ g0 = g2 := by
        have := Option.some.inj h
        exact ⟨congrArg Prod.fst this, congrArg Prod.snd this⟩
      refine ⟨le_refl _, Or.inr ?_⟩
      have hh0 : '-' ∉ s.drop (K + 1) := fun hm => hh (List.mem_of_mem_drop hm)
      exact breakAt_shape _ g0 hh0 hb
    | none =>
      rw [hb] at h
      by_cases hdrop : s.drop (K + 1) = []
      · rw [if_pos hdrop] at h
        obtain ⟨rfl, rfl⟩ : K + 1 = k ∧ ([] : List Char) = g2 := by
          have := Option.some.inj h
          exact ⟨congrArg Prod.fst this, congrArg Prod.snd this⟩
        exact ⟨le_refl _, Or.inl ⟨rfl, hdrop⟩⟩
      · rw [if_neg hdrop] at h
        obtain ⟨hk, hshape⟩ := ih k g2 h
        exact ⟨by omega, hshape⟩

theorem take_no_nl (s : List Char) :
    ∀ k : Nat, k ≤ nonNlLen s → '\n' ∉ s.take k := by
  induction s with
  | nil => intro k _; simp
  | cons c r ih =>
    intro k hk
    cases k with
    | zero => simp
    | succ k =>
      rw [nonNlLen] at hk
      by_cases hc : c = '\n'
      · rw [if_pos hc] at hk
        omega
      · rw [if_neg hc] at hk
        rw [List.take_succ_cons]
        simp only [List.mem_cons, not_or]
        exact ⟨fun h => hc h.symm, ih k (by omega)⟩

/-! ### The wrap scan: bounded lines and untouched long words (C5) -/

theorem constrainGo_nil_true (W : Nat) :
    ∀ fuel : Nat, constrainGo W fuel [] true = [] := by
  intro fuel
  cases fuel <;> rfl

/-- Every output line of the scan fits in `W` columns, for hyphen-free text
whose whitespace-free runs all fit (there is then a break within reach at
every position, so no character is ever copied unmatched). -/
theorem constrainGo_linesLE (W : Nat) :
    ∀ (fuel : Nat) (s : List Char) (adj : Bool), s.length < fuel →
      '-' ∉ s → runsOK W s = true →
      ∀ l ∈ textLines (constrainGo W fuel s adj), l.length ≤ W := by
  intro fuel
  induction fuel with
  | zero =>
    intro s adj hlen
    exact absurd hlen (Nat.not_lt_zero _)
  | succ fuel ih =>
    intro s adj hlen hhy hrun l hl
    cases s with
    | nil =>
      cases adj <;>
        simp only [constrainGo, if_true, if_false, ite_true, ite_false] at hl <;>
        simp [textLines] at hl <;> simp [hl]
    | cons c rest =>
      have hexists : ∃ k, k ≤ min W (nonNlLen (c :: rest)) ∧
          ((breakAt ((c :: rest).drop k)).isSome ∨ (c :: rest).drop k = []) := by
        refine ⟨runLen (c :: rest), ?_, ?_⟩
        · have h1 := runsOK_head_le W (c :: rest) hrun
          have h2 := runLen_le_nonNlLen (c :: rest)
          omega
        · rcases drop_runLen_break (c :: rest) with h | ⟨c0, r0, hdrop, hsp⟩
          · right
            exact h
          · left
            rw [hdrop]
            simp [breakAt, hsp]
      obtain ⟨k, g2, hmatch⟩ := tryMatchK_exists (c :: rest) _ hexists
      obtain ⟨hkK, hshape⟩ := tryMatchK_shape (c :: rest) hhy _ k g2 hmatch
      have hkW : k ≤ W := by
        have := Nat.min_le_left W (nonNlLen (c :: rest))
        omega
      have hkN : k ≤ nonNlLen (c :: rest) := by
        have := Nat.min_le_right W (nonNlLen (c :: rest))
        omega
      have hmatch' : tryMatch W (c :: rest) = some (k, g2) := hmatch
      have hg2len : g2.length < 2 := by
        rcases hshape with ⟨rfl, _⟩ | ⟨c0, rfl, _⟩ <;> simp
      simp only [constrainGo, hmatch'] at hl
      rw [if_pos hg2len] at hl
      rw [textLines_append_cons _ _ (take_no_nl (c :: rest) k hkN)] at hl
      rcases List.mem_cons.mp hl with rfl | hl2
      · have htake : ((c :: rest).take k).length ≤ k := by
          simp [List.length_take]
        omega
      · refine ih ((c :: rest).drop (k + g2.length)) true ?_
          (fun hm => hhy (List.mem_of_mem_drop hm))
          (runsOK_drop W _ _ hrun) l hl2
        rcases hshape with ⟨rfl, hdrop⟩ | ⟨c0, rfl, _⟩
        · simp only [List.length_nil, Nat.add_zero]
          rw [hdrop]
          simp only [List.length_nil]
          have : (c :: rest).length ≤ fuel := by omega
          have hlenpos : 1 ≤ (c :: rest).length := by simp
          omega
        · have hdl2 : ((c :: rest).drop (k + [c0].length)).length =
              (c :: rest).length - (k + 1) := by
            simp
          rw [hdl2]
          have hlenpos : 1 ≤ (c :: rest).length := by simp
          omega

theorem nonNlLen_eq_length (s : List Char) (h : ∀ x ∈ s, x ≠ '\n') :
    nonNlLen s = s.length := by
  induction s with
  | nil => rfl
  | cons c r ih =>
    rw [nonNlLen, if_neg (h c (by simp)), ih (fun x hx => h x (by simp [hx]))]
    rfl

theorem breakAt_none_word (t : List Char) (h : ∀ x ∈ t, isPyWord x = true) :
    breakAt t = none := by
  cases t with
  | nil => rfl
  | cons c r =>
    have hnh : '-' ∉ (c :: r) := fun hm => by
      have := h '-' hm
      exact absurd this (by decide)
    simp only [breakAt]
    rw [if_neg (by rw [word_not_space c (h c (by simp))]; simp),
      hyphenAt_eq_none _ hnh]

theorem tryMatchK_none_noBreak (s : List Char)
    (hnb : ∀ k, breakAt (s.drop k) = none) :
    ∀ K, K < s.length → tryMatchK s K = none := by
  intro K
  induction K with
  | zero =>
    intro hK
    have hb := hnb 0
    rw [List.drop_zero] at hb
    have hne : ¬ s = [] := by
      intro h0
      rw [h0] at hK
      simp at hK
    simp [tryMatchK, hb, hne]
  | succ K ih =>
    intro hK
    have hb := hnb (K + 1)
    have hne : ¬ s.drop (K + 1) = [] := by
      intro h0
      have := congrArg List.length h0
      simp only [List.length_drop, List.length_nil] at this
      omega
    simp [tryMatchK, hb, hne, ih (by omega)]

/-- A nonempty all-word-character text (a single long word) passes through
the scan whole: it is emitted unbroken with one trailing newline, however
long it is relative to `W`. -/
theorem constrainGo_word (W : Nat) :
    ∀ (fuel : Nat) (s : List Char) (adj : Bool), s.length < fuel → s ≠ [] →
      (∀ c ∈ s, isPyWord c = true) →
      constrainGo W fuel s adj = s ++ ['\n'] := by
  intro fuel
  induction fuel with
  | zero =>
    intro s adj hlen
    exact absurd hlen (Nat.not_lt_zero _)
  | succ fuel ih =>
    intro s adj hlen hne hword
    cases s with
    | nil => exact absurd rfl hne
    | cons c rest =>
      have hNl : ∀ x ∈ (c :: rest), x ≠ '\n' := fun x hx h0 => by
        have := hword x hx
        rw [h0] at this
        exact absurd this (by decide)
      have hnn : nonNlLen (c :: rest) = (c :: rest).length :=
        nonNlLen_eq_length _ hNl
      by_cases hlong : (c :: rest).length ≤ W
      · have hdl : (c :: rest).drop ((c :: rest).length) = [] := List.drop_length _
        have hmin : min W (nonNlLen (c :: rest)) = rest.length + 1 := by
          rw [hnn]
          exact min_eq_right (by simpa using hlong)
        have hmatch : tryMatch W (c :: rest) = some ((c :: rest).length, []) := by
          rw [tryMatch, hmin]
          have hdl1 : (c :: rest).drop (rest.length + 1) = [] := by
            simp only [List.length_cons] at hdl
            exact hdl
          have hb : breakAt ((c :: rest).drop (rest.length + 1)) = none := by
            rw [hdl1]
            rfl
          simp [tryMatchK, hb, breakAt, hdl1]
        simp only [constrainGo, hmatch]
        rw [if_pos (by simp)]
        simp [List.take_length, hdl, constrainGo_nil_true]
      · have hmatch : tryMatch W (c :: rest) = none := by
          rw [tryMatch]
          apply tryMatchK_none_noBreak
          · intro k
            apply breakAt_none_word
            intro x hx
            exact hword x (List.mem_of_mem_drop hx)
          · rw [hnn]
            omega
        simp only [constrainGo, hmatch]
        by_cases hrest : rest = []
        · subst hrest
          have hfuel : 1 ≤ fuel := by
            simp only [List.length_cons, List.length_nil] at hlen
            omega
          cases fuel with
          | zero => omega
          | succ fuel2 => rfl
        · rw [ih rest false (by simp at hlen ⊢; omega) hrest
            (fun x hx => hword x (by simp [hx]))]
          rfl

/-- C5 counterexample: `constrain("abcdefgh", 4)` returns the eight-letter
word on a single line of length 8 — neither at most 4 nor truncated to
exactly 4 as the claim requires. -/
theorem constrain_overlong_cex :
    constrain ['a', 'b', 'c', 'd', 'e', 'f', 'g', 'h'] 4 =
        ['a', 'b', 'c', 'd', 'e', 'f', 'g', 'h'] ∧
      ¬ ∀ l ∈ textLines (constrain ['a', 'b', 'c', 'd', 'e', 'f', 'g', 'h'] 4),
          l.length ≤ 4 := by
  refine ⟨by decide, by decide⟩

/-- C5 (amended): for plain text — no hyphens, no pre-drawn frame pipes —
whose whitespace-free runs all fit in the requested width, every wrapped
output line has length at most the width; and a single word longer than the
width is **not** truncated: it is returned unchanged (the hard cut to the
interior width happens later, in `frame`'s side-border pass). -/
theorem constrain_wrap_spec :
    (∀ (W : Nat) (s : List Char), '-' ∉ s → '|' ∉ s → runsOK W s = true →
        ∀ l ∈ textLines (constrain s (W : Int)), l.length ≤ W) ∧
      (∀ (W : Nat) (s : List Char), s ≠ [] → (∀ c ∈ s, isPyWord c = true) →
        constrain s (W : Int) = s) := by
  have hw0 : ∀ W : Nat, ¬ ((W : Int) < 0) := fun W => not_lt.mpr (Int.natCast_nonneg W)
  constructor
  · intro W s hhy hpipe hrun l hl
    simp only [constrain] at hl
    rw [protectPipes_id s hpipe, if_neg (hw0 W), Int.toNat_natCast] at hl
    have hbase := constrainGo_linesLE W (s.length + 1) s false (by omega) hhy hrun
    have hmap : ∀ l0 ∈ textLines ((constrainGo W (s.length + 1) s false).map
        unprotectChar), l0.length ≤ W := by
      intro l0 hl0
      rw [textLines_map unprotectChar unprotectChar_nl] at hl0
      rcases List.mem_map.mp hl0 with ⟨l1, hl1, rfl⟩
      simpa using hbase l1 hl1
    exact stripTrailingNl_linesLE W _ hmap l hl
  · intro W s hne hword
    have hpipe : '|' ∉ s := fun hm => absurd (hword '|' hm) (by decide)
    simp only [constrain]
    rw [protectPipes_id s hpipe, if_neg (hw0 W), Int.toNat_natCast]
    rw [constrainGo_word W (s.length + 1) s false (by omega) hne hword]
    rw [map_unprotect_id _ (by
      intro c hc
      rcases List.mem_append.mp hc with h | h
      · intro h0
        have := hword c h
        rw [h0] at this
        exact absurd this (by decide)
      · simp only [List.mem_singleton] at h
        subst h
        decide)]
    rw [stripTrailingNl, if_pos (List.getLast?_concat s), List.dropLast_concat]

/-- C5 witness: the amended statement at `constrain("ab cd", 4)` (all lines
fit) and `constrain("abc", 2)` (over-long word untouched). -/
theorem constrain_wrap_spec_wit :
    (∀ l ∈ textLines (constrain ['a', 'b', ' ', 'c', 'd'] ((4 : Nat) : Int)),
        l.length ≤ 4) ∧
      constrain ['a', 'b', 'c'] ((2 : Nat) : Int) = ['a', 'b', 'c'] := by
  constructor
  · exact constrain_wrap_spec.1 4 ['a', 'b', ' ', 'c', 'd']
      (by decide) (by decide) (by decide)
  · exact constrain_wrap_spec.2 2 ['a', 'b', 'c'] (by decide) (by decide)

end TextPy
